import Mathlib

/-!
# Verification of the `bittyset` crate's `BitSet`

A shallow embedding of `BitSet<T>` from `src/lib.rs`, `src/impls.rs`,
`src/iter.rs` and `src/block.rs`.  The generic block type `T` (an unsigned
integer of `T::NUM_BITS` bits) is modelled by a width parameter `w : Nat`;
a block value is a `Nat` that is kept `< 2 ^ w`.  The Rust struct

  pub struct BitSet<T> { vec: Vec<T>, num_bits: usize }

becomes a structure holding a `List Nat` and a `Nat`.  Machine `usize`
arithmetic that can overflow is modelled explicitly where the source checks
it (`checked_add`, the debug-mode additions in `insert`); everywhere else
the source's arithmetic cannot overflow observable ranges and plain `Nat`
arithmetic is used.  Rust's panicking slice index `vec[i]` is modelled with
`List.getD _ _ 0`; the in-bounds claims (C9) show the default branch is
unreachable for states satisfying the representation invariant.
-/

namespace Bittyset

/-- Fuel-driven popcount: `countOnesAux f n` counts one bits of `n` among the
low `f` binary digits.  With `f = w` and `n < 2 ^ w` this is exactly
`T::count_ones`. -/
def countOnesAux : Nat → Nat → Nat
  | 0, _ => 0
  | fuel + 1, n => n % 2 + countOnesAux fuel (n / 2)

/-- Model of `T::count_ones` for a block of width `w`. -/
def countOnes (w n : Nat) : Nat := countOnesAux w n

/-- Fuel-driven binary length: with enough fuel, the number of binary digits
of `n` (`0` for `n = 0`).  `T::leading_zeros` is `w - bitLenAux w n`. -/
def bitLenAux : Nat → Nat → Nat
  | 0, _ => 0
  | fuel + 1, n => if n = 0 then 0 else bitLenAux fuel (n / 2) + 1

/-- Model of `T::leading_zeros` for a block of width `w`. -/
def leadingZeros (w n : Nat) : Nat := w - bitLenAux w n

/-- Trailing-zero count of a nonzero value, fuel-driven. -/
def trailingZerosAux : Nat → Nat → Nat
  | 0, _ => 0
  | fuel + 1, n => if n % 2 = 1 then 0 else trailingZerosAux fuel (n / 2) + 1

/-- Model of `T::trailing_zeros` for width `w`: returns `w` on the zero
block, like the hardware instruction. -/
def trailingZeros (w n : Nat) : Nat := if n = 0 then w else trailingZerosAux w n

/-- `!b` on a `w`-bit block: Rust's bitwise complement within the block
width.  For `b < 2 ^ w` this flips exactly the low `w` bits. -/
def complw (w b : Nat) : Nat := (2 ^ w - 1) ^^^ b

/-- `compute_num_blocks::<T>(num_bits)` from `src/lib.rs`:
`(num_bits + T::NUM_BITS - 1) / T::NUM_BITS`. -/
def computeNumBlocks (w numBits : Nat) : Nat := (numBits + w - 1) / w

/-- The `BitSet` struct from `src/lib.rs`: the block vector and the logical
bit length `num_bits`. -/
structure BitSet where
  vec : List Nat
  num_bits : Nat
deriving DecidableEq, Repr

/-- `BitSet::new`: empty vector, zero bits. -/
def BitSet.new : BitSet := ⟨[], 0⟩

/-- `BitSet::with_capacity(capacity)`: logically identical to `new` — the
capacity hint only pre-sizes the allocation, which is not part of the
logical state modelled here. -/
def BitSet.withCapacity (_w _capacity : Nat) : BitSet := BitSet.new

/-- `BitSet::clear`: drop all blocks, zero the length. -/
def BitSet.clear (_s : BitSet) : BitSet := ⟨[], 0⟩

/-- `BitSet::contains_unchecked`:
`self.vec[value / T::NUM_BITS] & (T::one() << (value % T::NUM_BITS)) != T::zero()`. -/
def BitSet.containsUnchecked (w : Nat) (s : BitSet) (value : Nat) : Bool :=
  s.vec.getD (value / w) 0 &&& (1 <<< (value % w)) != 0

/-- `BitSet::contains`: `false` for `value >= num_bits`, else the bit test. -/
def BitSet.contains (w : Nat) (s : BitSet) (value : Nat) : Bool :=
  if value ≥ s.num_bits then false else s.containsUnchecked w value

/-- The backward scan of `BitSet::compact`, expressed on the reversed block
list: drop blocks from the top while their popcount is zero. -/
def dropTrailingZeros (w : Nat) : List Nat → List Nat
  | [] => []
  | x :: xs => if countOnes w x ≠ 0 then x :: xs else dropTrailingZeros w xs

/-- `BitSet::compact`: find the highest block with a set bit, truncate the
vector after it and recompute `num_bits` as
`(i + 1) * T::NUM_BITS - vec[i].leading_zeros()`; if all blocks are zero,
reset to the empty state. -/
def BitSet.compact (w : Nat) (s : BitSet) : BitSet :=
  match dropTrailingZeros w s.vec.reverse with
  | [] => ⟨[], 0⟩
  | x :: r => ⟨(x :: r).reverse, (x :: r).length * w - leadingZeros w x⟩

/-- `BitSet::insert` (state and returned `bool`): resize the vector with
zero blocks to cover `value`, raise `num_bits` to at least `value + 1`,
record prior membership, set the bit, return `!present`. -/
def BitSet.insert (w : Nat) (s : BitSet) (value : Nat) : BitSet × Bool :=
  let nblks := computeNumBlocks w (value + 1)
  let vec1 := if s.vec.length < nblks
    then s.vec ++ List.replicate (nblks - s.vec.length) 0 else s.vec
  let nb1 := if s.num_bits < value + 1 then value + 1 else s.num_bits
  let present := BitSet.containsUnchecked w ⟨vec1, nb1⟩ value
  (⟨vec1.set (value / w) (vec1.getD (value / w) 0 ||| (1 <<< (value % w))), nb1⟩,
   !present)

/-- `BitSet::remove` (state and returned `bool`): no-op below, else clear
the bit with `&= !(1 << j)` and compact when the removed bit was the
boundary bit `num_bits - 1`. -/
def BitSet.remove (w : Nat) (s : BitSet) (value : Nat) : BitSet × Bool :=
  if value ≥ s.num_bits then (s, false) else
  let present := s.containsUnchecked w value
  let s1 : BitSet :=
    ⟨s.vec.set (value / w) (s.vec.getD (value / w) 0 &&& complw w (1 <<< (value % w))),
     s.num_bits⟩
  if present && value + 1 == s.num_bits then (s1.compact w, present) else (s1, present)

/-- `Extend<usize> for BitSet`: repeated `insert`. -/
def BitSet.extend (w : Nat) (s : BitSet) (l : List Nat) : BitSet :=
  l.foldl (fun t v => (t.insert w v).1) s

/-- `FromIterator<usize> for BitSet`: `Default::default()` (the empty set)
then `extend`. -/
def BitSet.ofList (w : Nat) (l : List Nat) : BitSet := BitSet.new.extend w l

/-- The per-block loop `for i in 0..nblks { lhs.vec[i] = f(lhs.vec[i], rhs_vec[i]) }`
shared by the four operator bodies in `src/impls.rs`: combine the first
`n` blocks of `l` with the corresponding blocks of `r`, keep the rest of
`l`. -/
def opBlocks (f : Nat → Nat → Nat) : Nat → List Nat → List Nat → List Nat
  | 0, l, _ => l
  | _ + 1, [], _ => []
  | n + 1, a :: l, r => f a (r.headD 0) :: opBlocks f n l r.tail

/-- The shared shape of the four `op_impl!` bodies: apply `f` block-wise
over `compute_num_blocks(min(lhs.num_bits, rhs_nbits))` blocks, leaving
`num_bits` untouched (compaction, where required, is applied on top). -/
def applyOp (f : Nat → Nat → Nat) (w : Nat) (lhs : BitSet)
    (rhsVec : List Nat) (rhsNbits : Nat) : BitSet :=
  ⟨opBlocks f (computeNumBlocks w (min lhs.num_bits rhsNbits)) lhs.vec rhsVec,
   lhs.num_bits⟩

/-- The `BitOr` body: `lhs.vec[i] |= rhs_vec[i]`, no compaction. -/
def unionBody (w : Nat) (lhs : BitSet) (rhsVec : List Nat) (rhsNbits : Nat) : BitSet :=
  applyOp (fun a b => a ||| b) w lhs rhsVec rhsNbits

/-- The `BitAnd` body: `lhs.vec[i] &= rhs_vec[i]`, then `lhs.compact()`. -/
def interBody (w : Nat) (lhs : BitSet) (rhsVec : List Nat) (rhsNbits : Nat) : BitSet :=
  (applyOp (fun a b => a &&& b) w lhs rhsVec rhsNbits).compact w

/-- The `BitXor` body: `lhs.vec[i] ^= rhs_vec[i]`, then `lhs.compact()`. -/
def xorBody (w : Nat) (lhs : BitSet) (rhsVec : List Nat) (rhsNbits : Nat) : BitSet :=
  (applyOp (fun a b => a ^^^ b) w lhs rhsVec rhsNbits).compact w

/-- The `Sub` body: `lhs.vec[i] &= !rhs_vec[i]`, then `lhs.compact()`. -/
def diffBody (w : Nat) (lhs : BitSet) (rhsVec : List Nat) (rhsNbits : Nat) : BitSet :=
  (applyOp (fun a b => a &&& complw w b) w lhs rhsVec rhsNbits).compact w

/-- `&a | &b` (`op_impl_ref_body!` with `swap_cond = <`): clone the operand
with more bits and fold the other into it. -/
def unionRef (w : Nat) (a b : BitSet) : BitSet :=
  if a.num_bits < b.num_bits then unionBody w b a.vec a.num_bits
  else unionBody w a b.vec b.num_bits

/-- `a |= b` with an owned right operand (`op_impl_assign_body!` with
`swap_cond = <`): swap the operands when the right one has more bits, then
run the body. -/
def unionAssign (w : Nat) (a b : BitSet) : BitSet :=
  if a.num_bits < b.num_bits then unionBody w b a.vec a.num_bits
  else unionBody w a b.vec b.num_bits

/-- `a | b` on owned values: `{ self |= rhs; self }`. -/
def unionOwned (w : Nat) (a b : BitSet) : BitSet := unionAssign w a b

/-- `a |= &b` (`op_impl_assign_ref_body!` with `swap_cond = <`): when `b`
has more bits, adopt its length, append its high blocks
(`extend_from_slice(&rhs.vec[self.vec.len()..])`) and fold the old `a`
range in. -/
def unionAssignRef (w : Nat) (a b : BitSet) : BitSet :=
  if a.num_bits < b.num_bits then
    unionBody w ⟨a.vec ++ b.vec.drop a.vec.length, b.num_bits⟩ b.vec a.num_bits
  else unionBody w a b.vec b.num_bits

/-- `&a & &b` (`swap_cond = >`): clone the operand with fewer bits. -/
def interRef (w : Nat) (a b : BitSet) : BitSet :=
  if a.num_bits > b.num_bits then interBody w b a.vec a.num_bits
  else interBody w a b.vec b.num_bits

/-- `a &= b` with an owned right operand (`swap_cond = >`). -/
def interAssign (w : Nat) (a b : BitSet) : BitSet :=
  if a.num_bits > b.num_bits then interBody w b a.vec a.num_bits
  else interBody w a b.vec b.num_bits

/-- `a & b` on owned values: `{ self &= rhs; self }`. -/
def interOwned (w : Nat) (a b : BitSet) : BitSet := interAssign w a b

/-- `a &= &b` (`swap_cond = >`): when `a` has more bits, truncate its
vector to `b`'s block count and adopt `b`'s length before the body. -/
def interAssignRef (w : Nat) (a b : BitSet) : BitSet :=
  if a.num_bits > b.num_bits then
    interBody w ⟨a.vec.take b.vec.length, b.num_bits⟩ b.vec a.num_bits
  else interBody w a b.vec b.num_bits

/-- `&a ^ &b` (`swap_cond = <`). -/
def xorRef (w : Nat) (a b : BitSet) : BitSet :=
  if a.num_bits < b.num_bits then xorBody w b a.vec a.num_bits
  else xorBody w a b.vec b.num_bits

/-- `a ^= b` with an owned right operand (`swap_cond = <`). -/
def xorAssign (w : Nat) (a b : BitSet) : BitSet :=
  if a.num_bits < b.num_bits then xorBody w b a.vec a.num_bits
  else xorBody w a b.vec b.num_bits

/-- `a ^ b` on owned values: `{ self ^= rhs; self }`. -/
def xorOwned (w : Nat) (a b : BitSet) : BitSet := xorAssign w a b

/-- `a ^= &b` (`swap_cond = <`): same block-extension step as union. -/
def xorAssignRef (w : Nat) (a b : BitSet) : BitSet :=
  if a.num_bits < b.num_bits then
    xorBody w ⟨a.vec ++ b.vec.drop a.vec.length, b.num_bits⟩ b.vec a.num_bits
  else xorBody w a b.vec b.num_bits

/-- `&a - &b` (no `swap_cond`: difference never swaps). -/
def diffRef (w : Nat) (a b : BitSet) : BitSet := diffBody w a b.vec b.num_bits

/-- `a -= b` with an owned right operand. -/
def diffAssign (w : Nat) (a b : BitSet) : BitSet := diffBody w a b.vec b.num_bits

/-- `a - b` on owned values: `{ self -= rhs; self }`. -/
def diffOwned (w : Nat) (a b : BitSet) : BitSet := diffAssign w a b

/-- `a -= &b`. -/
def diffAssignRef (w : Nat) (a b : BitSet) : BitSet := diffBody w a b.vec b.num_bits

/-- `PartialEq for BitSet`: equal `num_bits` and equal logical prefixes
`vec[..compute_num_blocks(num_bits)]` (the Rust slice is modelled with
`List.take`; under the representation invariant the prefix is the whole
vector). -/
def beq (w : Nat) (a b : BitSet) : Bool :=
  if a.num_bits ≠ b.num_bits then false
  else a.vec.take (computeNumBlocks w a.num_bits)
    == b.vec.take (computeNumBlocks w a.num_bits)

/-- `Hash for BitSet` feeds exactly the slice
`vec[..compute_num_blocks(num_bits)]` to the hasher; this function is that
slice, i.e. the data the hasher sees. -/
def hashInput (w : Nat) (s : BitSet) : List Nat :=
  s.vec.take (computeNumBlocks w s.num_bits)

/-- `BitSet::is_subset`: `false` when `self.num_bits > other.num_bits`,
else `self.vec[i] & !other.vec[i] == 0` for every block of `self`. -/
def isSubset (w : Nat) (a b : BitSet) : Bool :=
  if a.num_bits > b.num_bits then false
  else (List.range (computeNumBlocks w a.num_bits)).all
    (fun i => a.vec.getD i 0 &&& complw w (b.vec.getD i 0) == 0)

/-- `BitSet::is_proper_subset`: the same block-wise subset check, plus an
`equal` flag that starts as `nblks1 == nblks2` and is cleared by any
differing block; the result is `!equal` (the early `return false` of the
loop is the failed subset check). -/
def isProperSubset (w : Nat) (a b : BitSet) : Bool :=
  if a.num_bits > b.num_bits then false
  else
    let nblks1 := computeNumBlocks w a.num_bits
    let nblks2 := computeNumBlocks w b.num_bits
    if (List.range nblks1).all
        (fun i => a.vec.getD i 0 &&& complw w (b.vec.getD i 0) == 0) then
      !(nblks1 == nblks2
        && (List.range nblks1).all (fun i => a.vec.getD i 0 == b.vec.getD i 0))
    else false

/-- `find_lowest_set_bit` from `src/iter.rs`: `None` for `from >= NUM_BITS`,
else the trailing-zero count of `blk & !((1 << from) - 1)`, with the
all-zero answer `NUM_BITS` mapped to `None`. -/
def findLowestSetBit (w blk start : Nat) : Option Nat :=
  if start ≥ w then none
  else
    let x := trailingZeros w (blk &&& complw w ((1 <<< start) - 1))
    if x = w then none else some x

/-- The elements yielded from one block by `Iter::next`, starting at offset
`bit`: while the loop guard `index * NUM_BITS + bit < num_bits` holds
(`base = index * NUM_BITS`), each `find_lowest_set_bit` hit `b` yields
`base + b` and resumes at `b + 1`; a miss moves to the next block.  The
fuel argument bounds the hits (at most `w` per block) and is always called
with `w + 1`. -/
def iterBits : Nat → Nat → Nat → Nat → Nat → Nat → List Nat
  | 0, _, _, _, _, _ => []
  | fuel + 1, w, blk, bit, base, numBits =>
    if base + bit < numBits then
      match findLowestSetBit w blk bit with
      | some b => (base + b) :: iterBits fuel w blk (b + 1) base numBits
      | none => []
    else []

/-- The full yield sequence of `Iter` from block `index = base / w` on:
walk the remaining blocks, scanning each from offset `0`. -/
def iterFrom (w : Nat) : List Nat → Nat → Nat → List Nat
  | [], _, _ => []
  | blk :: rest, base, numBits =>
    iterBits (w + 1) w blk 0 base numBits ++ iterFrom w rest (base + w) numBits

/-- Everything `BitSet::iter` yields, in order. -/
def iterList (w : Nat) (s : BitSet) : List Nat := iterFrom w s.vec 0 s.num_bits

/-- `reserve` (`src/lib.rs`) with every piece of `usize` arithmetic made
explicit, in the source's debug semantics where an overflowing addition
aborts before any mutation.  `U` is the number of values of the index type
(`usize::MAX + 1`) and `cap0` the current value of `self.capacity()` — an
allocation quantity that gates the grow branch but is not part of the
logical state.  First `num_bits.checked_add(additional)` fails
(`expect("capacity overflow")`) on overflow; then, only when the requested
`cap` exceeds the current capacity, `compute_num_blocks::<T>(cap)` computes
`cap + T::NUM_BITS - 1`, whose addition is itself overflow-checked; on
success the logical state is unchanged (only the allocation, not modelled
here, may grow). -/
def reserveE (U w : Nat) (s : BitSet) (cap0 additional : Nat) : Option BitSet :=
  if s.num_bits + additional ≥ U then none
  else if s.num_bits + additional > cap0 then
    if s.num_bits + additional + w ≥ U then none else some s
  else some s

/-- `reserve_exact` has exactly the same checked arithmetic
(`checked_add`, then `compute_num_blocks(cap)` inside the grow branch) and
the same (absent) effect on the logical state. -/
def reserveExactE (U w : Nat) (s : BitSet) (cap0 additional : Nat) : Option BitSet :=
  if s.num_bits + additional ≥ U then none
  else if s.num_bits + additional > cap0 then
    if s.num_bits + additional + w ≥ U then none else some s
  else some s

/-- `insert` with the `usize` arithmetic made explicit: `value + 1`
(overflow-checked addition in the source's debug semantics) and the
`num_bits + T::NUM_BITS` inside `compute_num_blocks` both abort with an
overflow error instead of wrapping; no mutation happens before these
computations in the source. -/
def insertE (U w : Nat) (s : BitSet) (value : Nat) : Option (BitSet × Bool) :=
  if value + 1 ≥ U then none
  else if value + 1 + w ≥ U then none
  else some (s.insert w value)

/-- Observation function: the bit stored for value `x` — bit `x % w` of
block `x / w` (blocks past the end of the vector read as zero). -/
def getBit (w : Nat) (s : BitSet) (x : Nat) : Bool :=
  (s.vec.getD (x / w) 0).testBit (x % w)

/-- All blocks (and the out-of-range default) fit in `w` bits — the image
of the Rust typing invariant `T: uN`. -/
def Blocks (w : Nat) (s : BitSet) : Prop := ∀ i, s.vec.getD i 0 < 2 ^ w

/-- The representation invariants of `BitSet` (doc comment on the `vec`
field of `src/lib.rs` together with the structural typing facts):
the vector holds exactly `ceil(num_bits / w)` blocks, every block fits in
`w` bits, every bit at a position `≥ num_bits` is zero, and the boundary
bit `num_bits - 1` is set whenever `num_bits > 0` (the compaction
invariant). -/
def Inv (w : Nat) (s : BitSet) : Prop :=
  s.vec.length = computeNumBlocks w s.num_bits ∧ Blocks w s ∧
  (∀ x, s.num_bits ≤ x → getBit w s x = false) ∧
  (0 < s.num_bits → getBit w s (s.num_bits - 1) = true)

/-- The states reachable through the public API modelled here: construction,
insertion, removal, clearing, bulk extension and the twelve operator
forms. -/
inductive Reachable (w : Nat) : BitSet → Prop where
  | new : Reachable w BitSet.new
  | withCapacity (c : Nat) : Reachable w (BitSet.withCapacity w c)
  | insert (s : BitSet) (v : Nat) : Reachable w s → Reachable w (s.insert w v).1
  | remove (s : BitSet) (v : Nat) : Reachable w s → Reachable w (s.remove w v).1
  | clear (s : BitSet) : Reachable w s → Reachable w s.clear
  | extend (s : BitSet) (l : List Nat) : Reachable w s → Reachable w (s.extend w l)
  | ofList (l : List Nat) : Reachable w (BitSet.ofList w l)
  | unionRef (a b : BitSet) : Reachable w a → Reachable w b →
      Reachable w (Bittyset.unionRef w a b)
  | unionAssign (a b : BitSet) : Reachable w a → Reachable w b →
      Reachable w (Bittyset.unionAssign w a b)
  | unionOwned (a b : BitSet) : Reachable w a → Reachable w b →
      Reachable w (Bittyset.unionOwned w a b)
  | unionAssignRef (a b : BitSet) : Reachable w a → Reachable w b →
      Reachable w (Bittyset.unionAssignRef w a b)
  | interRef (a b : BitSet) : Reachable w a → Reachable w b →
      Reachable w (Bittyset.interRef w a b)
  | interAssign (a b : BitSet) : Reachable w a → Reachable w b →
      Reachable w (Bittyset.interAssign w a b)
  | interOwned (a b : BitSet) : Reachable w a → Reachable w b →
      Reachable w (Bittyset.interOwned w a b)
  | interAssignRef (a b : BitSet) : Reachable w a → Reachable w b →
      Reachable w (Bittyset.interAssignRef w a b)
  | xorRef (a b : BitSet) : Reachable w a → Reachable w b →
      Reachable w (Bittyset.xorRef w a b)
  | xorAssign (a b : BitSet) : Reachable w a → Reachable w b →
      Reachable w (Bittyset.xorAssign w a b)
  | xorOwned (a b : BitSet) : Reachable w a → Reachable w b →
      Reachable w (Bittyset.xorOwned w a b)
  | xorAssignRef (a b : BitSet) : Reachable w a → Reachable w b →
      Reachable w (Bittyset.xorAssignRef w a b)
  | diffRef (a b : BitSet) : Reachable w a → Reachable w b →
      Reachable w (Bittyset.diffRef w a b)
  | diffAssign (a b : BitSet) : Reachable w a → Reachable w b →
      Reachable w (Bittyset.diffAssign w a b)
  | diffOwned (a b : BitSet) : Reachable w a → Reachable w b →
      Reachable w (Bittyset.diffOwned w a b)
  | diffAssignRef (a b : BitSet) : Reachable w a → Reachable w b →
      Reachable w (Bittyset.diffAssignRef w a b)

/-! ## List `getD` utilities -/

theorem getD_tail (l : List Nat) (i : Nat) : l.tail.getD i 0 = l.getD (i + 1) 0 := by
  cases l <;> simp [List.getD]

theorem headD_eq_getD (l : List Nat) : l.headD 0 = l.getD 0 0 := by
  cases l <;> simp [List.getD]

theorem getD_set_self (l : List Nat) (i b : Nat) (h : i < l.length) :
    (l.set i b).getD i 0 = b := by
  simp [List.getD, List.getElem?_set_self, h]

theorem getD_set_ne (l : List Nat) (i b j : Nat) (h : i ≠ j) :
    (l.set i b).getD j 0 = l.getD j 0 := by
  simp [List.getD, List.getElem?_set_ne h]

theorem getD_replicate_zero (n i : Nat) : (List.replicate n 0).getD i 0 = 0 := by
  rcases Nat.lt_or_ge i n with h | h
  · simp [List.getD, List.getElem?_replicate, h]
  · rw [List.getD_eq_default]
    simpa using h

theorem getD_take_lt (l : List Nat) (k i : Nat) (h : i < k) :
    (l.take k).getD i 0 = l.getD i 0 := by
  simp [List.getD, List.getElem?_take, h]

theorem getD_take_ge (l : List Nat) (k i : Nat) (h : k ≤ i) :
    (l.take k).getD i 0 = 0 := by
  rw [List.getD_eq_default]
  exact le_trans (List.length_take_le k l) h

theorem getD_drop (l : List Nat) (k i : Nat) : (l.drop k).getD i 0 = l.getD (k + i) 0 := by
  simp [List.getD, List.getElem?_drop]

theorem list_ext_getD (l₁ l₂ : List Nat) (h : l₁.length = l₂.length)
    (h2 : ∀ i, l₁.getD i 0 = l₂.getD i 0) : l₁ = l₂ := by
  apply List.ext_getElem h
  intro i h₁ h₂
  have := h2 i
  simpa [List.getD, List.getElem?_eq_getElem, h₁, h₂] using this

theorem set_getD_self (l : List Nat) (i : Nat) : l.set i (l.getD i 0) = l := by
  apply list_ext_getD _ _ (by simp)
  intro j
  rcases eq_or_ne i j with rfl | h
  · rcases Nat.lt_or_ge i l.length with hi | hi
    · exact getD_set_self l i _ hi
    · rw [List.set_eq_of_length_le hi]
  · exact getD_set_ne l i _ j h

/-! ## Bit-level utilities -/

theorem testBit_complw (w b j : Nat) (hj : j < w) :
    (complw w b).testBit j = !b.testBit j := by
  rw [complw, Nat.testBit_xor, Nat.testBit_two_pow_sub_one]
  simp [hj]

theorem land_two_pow_ne_zero (b j : Nat) :
    (b &&& (1 <<< j) != 0) = b.testBit j := by
  rw [Nat.one_shiftLeft]
  cases h : b.testBit j
  · have : b &&& 2 ^ j = 0 := by
      apply Nat.eq_of_testBit_eq
      intro i
      rw [Nat.testBit_land, Nat.testBit_two_pow, Nat.zero_testBit]
      rcases eq_or_ne j i with rfl | hne
      · simp [h]
      · simp [hne]
    simp [this]
  · have : b &&& 2 ^ j ≠ 0 := by
      intro h0
      have := congrArg (Nat.testBit · j) h0
      simp only [Nat.testBit_land, Nat.testBit_two_pow, Nat.zero_testBit] at this
      simp [h] at this
    simp [this]

theorem land_lt_two_pow_left (a b w : Nat) (ha : a < 2 ^ w) : a &&& b < 2 ^ w := by
  apply Nat.lt_pow_two_of_testBit
  intro i hi
  rw [Nat.testBit_land, Nat.testBit_lt_two_pow (lt_of_lt_of_le ha (Nat.pow_le_pow_right (by omega) hi))]
  rfl

theorem complw_lt_two_pow (w b : Nat) (hb : b < 2 ^ w) : complw w b < 2 ^ w :=
  Nat.xor_lt_two_pow (by omega) hb

theorem testBit_ge_false (a w i : Nat) (ha : a < 2 ^ w) (hi : w ≤ i) : a.testBit i = false :=
  Nat.testBit_lt_two_pow (lt_of_lt_of_le ha (Nat.pow_le_pow_right (by omega) hi))

theorem testBit_true_ge (a i : Nat) (h : a.testBit i = true) : 2 ^ i ≤ a := by
  rw [Nat.testBit_to_div_mod] at h
  have h1 : a / 2 ^ i % 2 = 1 := by simpa using h
  have : 1 ≤ a / 2 ^ i := by
    rcases Nat.eq_zero_or_pos (a / 2 ^ i) with h0 | h0
    · rw [h0] at h1
      simp at h1
    · exact h0
  calc 2 ^ i = 1 * 2 ^ i := (one_mul _).symm
    _ ≤ a / 2 ^ i * 2 ^ i := Nat.mul_le_mul_right _ this
    _ ≤ a := Nat.div_mul_le_self a _

/-! ## `computeNumBlocks` arithmetic -/

theorem cnb_le_iff (w n k : Nat) (hw : 0 < w) :
    computeNumBlocks w n ≤ k ↔ n ≤ k * w := by
  rw [computeNumBlocks, ← Nat.lt_succ_iff, Nat.div_lt_iff_lt_mul hw, Nat.succ_mul]
  omega

theorem lt_cnb_iff (w n k : Nat) (hw : 0 < w) :
    k < computeNumBlocks w n ↔ k * w < n := by
  rw [← Nat.not_le, ← Nat.not_le, cnb_le_iff w n k hw]

theorem le_cnb_mul (w n : Nat) (hw : 0 < w) : n ≤ computeNumBlocks w n * w :=
  (cnb_le_iff w n _ hw).1 le_rfl

theorem cnb_mono (w n m : Nat) (hw : 0 < w) (h : n ≤ m) :
    computeNumBlocks w n ≤ computeNumBlocks w m :=
  (cnb_le_iff w n _ hw).2 (le_trans h (le_cnb_mul w m hw))

theorem div_lt_cnb (w x n : Nat) (hw : 0 < w) (h : x < n) :
    x / w < computeNumBlocks w n :=
  (lt_cnb_iff w n _ hw).2 (lt_of_le_of_lt (Nat.div_mul_le_self x w) h)

theorem cnb_zero (w : Nat) (hw : 0 < w) : computeNumBlocks w 0 = 0 := by
  rw [computeNumBlocks]
  exact Nat.div_eq_of_lt (by omega)

theorem cnb_eq_zero_iff (w n : Nat) (hw : 0 < w) :
    computeNumBlocks w n = 0 ↔ n = 0 := by
  constructor
  · intro h
    have := (cnb_le_iff w n 0 hw).1 (le_of_eq h)
    omega
  · rintro rfl
    exact cnb_zero w hw

theorem cnb_pred_div (w n : Nat) (hw : 0 < w) (hn : 0 < n) :
    computeNumBlocks w n = (n - 1) / w + 1 := by
  rw [computeNumBlocks, show n + w - 1 = (n - 1) + 1 * w by omega,
    Nat.add_mul_div_right _ _ hw]

theorem cnb_mul_add (w m b : Nat) (hw : 0 < w) (hb1 : 1 ≤ b) (hbw : b ≤ w) :
    computeNumBlocks w (m * w + b) = m + 1 := by
  rw [computeNumBlocks, show m * w + b + w - 1 = (b - 1) + (m + 1) * w by ring_nf; omega,
    Nat.add_mul_div_right _ _ hw, Nat.div_eq_of_lt (by omega), Nat.zero_add]

/-! ## Specifications of the fuel-driven block primitives -/

theorem countOnesAux_zero (fuel : Nat) : countOnesAux fuel 0 = 0 := by
  induction fuel with
  | zero => rfl
  | succ f ih => simp [countOnesAux, ih]

theorem countOnesAux_eq_zero_iff (fuel n : Nat) (h : n < 2 ^ fuel) :
    countOnesAux fuel n = 0 ↔ n = 0 := by
  induction fuel generalizing n with
  | zero =>
    interval_cases n
    simp [countOnesAux]
  | succ f ih =>
    constructor
    · intro h0
      rw [countOnesAux] at h0
      have h2 : n / 2 < 2 ^ f := by
        rw [Nat.div_lt_iff_lt_mul (by omega)]
        calc n < 2 ^ (f + 1) := h
          _ = 2 ^ f * 2 := by ring
      have := (ih (n / 2) h2).1 (by omega)
      omega
    · rintro rfl
      exact countOnesAux_zero _

theorem bitLenAux_le (fuel n : Nat) (h : n < 2 ^ fuel) : bitLenAux fuel n ≤ fuel := by
  induction fuel generalizing n with
  | zero => simp [bitLenAux]
  | succ f ih =>
    rw [bitLenAux]
    split
    · omega
    · have h2 : n / 2 < 2 ^ f := by
        rw [Nat.div_lt_iff_lt_mul (by omega)]
        calc n < 2 ^ (f + 1) := h
          _ = 2 ^ f * 2 := by ring
      have := ih (n / 2) h2
      omega

theorem bitLenAux_pos (fuel n : Nat) (hn : n ≠ 0) (h : n < 2 ^ fuel) :
    0 < bitLenAux fuel n := by
  cases fuel with
  | zero => simp at h; omega
  | succ f => rw [bitLenAux]; simp [hn]

theorem bitLenAux_eq (fuel n k : Nat) (hk : 2 ^ k ≤ n) (hk2 : n < 2 ^ (k + 1))
    (hf : n < 2 ^ fuel) : bitLenAux fuel n = k + 1 := by
  induction fuel generalizing n k with
  | zero =>
    exfalso
    have : (1 : Nat) ≤ 2 ^ k := Nat.one_le_two_pow
    simp at hf
    omega
  | succ f ih =>
    have hn : n ≠ 0 := by
      have : (1 : Nat) ≤ 2 ^ k := Nat.one_le_two_pow
      omega
    rw [bitLenAux, if_neg hn]
    cases k with
    | zero =>
      have : n = 1 := by omega
      subst this
      simp [bitLenAux_le]
      cases f with
      | zero => rfl
      | succ f' => rw [bitLenAux]; simp
    | succ k' =>
      have hd1 : 2 ^ k' ≤ n / 2 := by
        rw [Nat.le_div_iff_mul_le (by omega)]
        calc 2 ^ k' * 2 = 2 ^ (k' + 1) := by ring
          _ ≤ n := hk
      have hd2 : n / 2 < 2 ^ (k' + 1) := by
        rw [Nat.div_lt_iff_lt_mul (by omega)]
        calc n < 2 ^ (k' + 1 + 1) := hk2
          _ = 2 ^ (k' + 1) * 2 := by ring
      have hdf : n / 2 < 2 ^ f := by
        rw [Nat.div_lt_iff_lt_mul (by omega)]
        calc n < 2 ^ (f + 1) := hf
          _ = 2 ^ f * 2 := by ring
      rw [ih (n / 2) k' hd1 hd2 hdf]

theorem trailingZerosAux_spec (fuel n : Nat) (hn : n ≠ 0) (h : n < 2 ^ fuel) :
    trailingZerosAux fuel n < fuel ∧ n.testBit (trailingZerosAux fuel n) = true ∧
    ∀ j, j < trailingZerosAux fuel n → n.testBit j = false := by
  induction fuel generalizing n with
  | zero => simp at h; omega
  | succ f ih =>
    rw [trailingZerosAux]
    by_cases h2 : n % 2 = 1
    · refine ⟨by simp [h2], ?_, by simp [h2]⟩
      simp [Nat.testBit_zero, h2]
    · rw [if_neg h2]
      have hh : n / 2 ≠ 0 := by omega
      have hlt : n / 2 < 2 ^ f := by
        rw [Nat.div_lt_iff_lt_mul (by omega)]
        calc n < 2 ^ (f + 1) := h
          _ = 2 ^ f * 2 := by ring
      obtain ⟨ih1, ih2, ih3⟩ := ih (n / 2) hh hlt
      refine ⟨by omega, ?_, ?_⟩
      · rw [Nat.testBit_succ]
        exact ih2
      · intro j hj
        cases j with
        | zero => simp [Nat.testBit_zero]; omega
        | succ j' =>
          rw [Nat.testBit_succ]
          exact ih3 j' (by omega)

theorem mask_testBit (w blk s j : Nat) (hs : s < w) :
    (blk &&& complw w ((1 <<< s) - 1)).testBit j
      = (blk.testBit j && (decide (s ≤ j) && decide (j < w))) := by
  rw [Nat.testBit_land, Nat.one_shiftLeft, complw, Nat.testBit_xor,
    Nat.testBit_two_pow_sub_one, Nat.testBit_two_pow_sub_one]
  rcases Nat.lt_or_ge j s with h1 | h1
  · simp [h1, Nat.lt_of_lt_of_le h1 (le_of_lt hs), Nat.not_le_of_lt h1]
  · rcases Nat.lt_or_ge j w with h2 | h2
    · simp [h2, h1, Nat.not_lt_of_ge h1]
    · simp [Nat.not_lt_of_ge h1, Nat.not_lt_of_ge h2,
        Nat.le_of_lt (Nat.lt_of_lt_of_le hs h2)]

theorem flsb_some_spec (w blk s b : Nat) (hblk : blk < 2 ^ w)
    (h : findLowestSetBit w blk s = some b) :
    s ≤ b ∧ b < w ∧ blk.testBit b = true ∧
    ∀ j, s ≤ j → j < b → blk.testBit j = false := by
  rw [findLowestSetBit] at h
  split at h
  · exact absurd h (by simp)
  · rename_i hs
    have hs' : s < w := by omega
    set m := blk &&& complw w ((1 <<< s) - 1) with hm
    by_cases hm0 : m = 0
    · rw [trailingZeros, if_pos hm0] at h
      simp at h
    · rw [trailingZeros, if_neg hm0] at h
      have hmlt : m < 2 ^ w := land_lt_two_pow_left blk _ w hblk
      obtain ⟨t1, t2, t3⟩ := trailingZerosAux_spec w m hm0 hmlt
      rw [if_neg (by omega)] at h
      have hb : b = trailingZerosAux w m := by
        simpa using h.symm
      subst hb
      rw [mask_testBit w blk s _ hs'] at t2
      simp only [Bool.and_eq_true, decide_eq_true_eq] at t2
      refine ⟨t2.2.1, t2.2.2, t2.1, ?_⟩
      intro j hj1 hj2
      have := t3 j hj2
      rw [mask_testBit w blk s j hs'] at this
      simpa [hj1, show j < w by omega] using this

theorem flsb_none_spec (w blk s : Nat) (hblk : blk < 2 ^ w)
    (h : findLowestSetBit w blk s = none) :
    ∀ j, s ≤ j → j < w → blk.testBit j = false := by
  intro j hj1 hj2
  rw [findLowestSetBit] at h
  split at h
  · omega
  · rename_i hs
    have hs' : s < w := by omega
    set m := blk &&& complw w ((1 <<< s) - 1) with hm
    by_cases hm0 : m = 0
    · have := congrArg (Nat.testBit · j) hm0
      simp only [Nat.zero_testBit] at this
      rw [mask_testBit w blk s j hs'] at this
      simpa [hj1, hj2] using this
    · exfalso
      rw [trailingZeros, if_neg hm0] at h
      have hmlt : m < 2 ^ w := land_lt_two_pow_left blk _ w hblk
      obtain ⟨t1, _, _⟩ := trailingZerosAux_spec w m hm0 hmlt
      rw [if_neg (by omega)] at h
      simp at h

/-! ## Core observation lemmas -/

theorem getBit_beyond (w : Nat) (s : BitSet) (x : Nat) (hw : 0 < w)
    (h : s.vec.length * w ≤ x) : getBit w s x = false := by
  rw [getBit, List.getD_eq_default, Nat.zero_testBit]
  rw [Nat.le_div_iff_mul_le hw]
  omega

theorem getBit_true_lt (w : Nat) (s : BitSet) (x : Nat) (hInv : Inv w s)
    (h : getBit w s x = true) : x < s.num_bits := by
  by_contra hx
  rw [hInv.2.2.1 x (by omega)] at h
  exact Bool.false_ne_true h

theorem containsUnchecked_eq_getBit (w : Nat) (s : BitSet) (v : Nat) :
    s.containsUnchecked w v = getBit w s v := by
  rw [BitSet.containsUnchecked, land_two_pow_ne_zero, getBit]

theorem contains_eq_getBit (w : Nat) (s : BitSet) (v : Nat) (hInv : Inv w s) :
    s.contains w v = getBit w s v := by
  rw [BitSet.contains]
  split
  · rename_i h
    exact (hInv.2.2.1 v h).symm
  · exact containsUnchecked_eq_getBit w s v

/-! ## Compaction -/

theorem div_mul_add (m t w : Nat) (hw : 0 < w) (ht : t < w) : (m * w + t) / w = m := by
  rw [Nat.mul_comm m w, Nat.mul_add_div hw, Nat.div_eq_of_lt ht, Nat.add_zero]

theorem mod_mul_add (m t w : Nat) (ht : t < w) : (m * w + t) % w = t := by
  rw [Nat.mul_comm m w, Nat.mul_add_mod, Nat.mod_eq_of_lt ht]

theorem mem_lt_of_getD (w : Nat) (l : List Nat) (h : ∀ i, l.getD i 0 < 2 ^ w) :
    ∀ b ∈ l, b < 2 ^ w := by
  intro b hb
  obtain ⟨i, hi, rfl⟩ := List.mem_iff_getElem.1 hb
  have := h i
  rwa [List.getD_eq_getElem l 0 hi] at this

theorem lt_two_pow_bitLenAux (fuel n : Nat) (h : n < 2 ^ fuel) :
    n < 2 ^ bitLenAux fuel n := by
  induction fuel generalizing n with
  | zero => simpa [bitLenAux] using h
  | succ f ih =>
    rw [bitLenAux]
    split
    · simp_all
    · have h2 : n / 2 < 2 ^ f := by
        rw [Nat.div_lt_iff_lt_mul (by omega)]
        calc n < 2 ^ (f + 1) := h
          _ = 2 ^ f * 2 := by ring
      have := ih (n / 2) h2
      calc n < (n / 2 + 1) * 2 := by omega
        _ ≤ 2 ^ bitLenAux f (n / 2) * 2 := by
            have : n / 2 + 1 ≤ 2 ^ bitLenAux f (n / 2) := this
            exact Nat.mul_le_mul_right 2 this
        _ = 2 ^ (bitLenAux f (n / 2) + 1) := by ring

theorem bitLenAux_of_zero (fuel : Nat) : bitLenAux fuel 0 = 0 := by
  cases fuel <;> simp [bitLenAux]

theorem bitLenAux_testBit (fuel n : Nat) (hn : n ≠ 0) (h : n < 2 ^ fuel) :
    n.testBit (bitLenAux fuel n - 1) = true := by
  induction fuel generalizing n with
  | zero => simp at h; omega
  | succ f ih =>
    rw [bitLenAux, if_neg hn]
    by_cases h0 : n / 2 = 0
    · have : n = 1 := by omega
      subst this
      simp [h0, bitLenAux_of_zero, Nat.testBit_zero]
    · have h2 : n / 2 < 2 ^ f := by
        rw [Nat.div_lt_iff_lt_mul (by omega)]
        calc n < 2 ^ (f + 1) := h
          _ = 2 ^ f * 2 := by ring
      have hpos := bitLenAux_pos f (n / 2) h0 h2
      have := ih (n / 2) h0 h2
      rw [show bitLenAux f (n / 2) + 1 - 1 = (bitLenAux f (n / 2) - 1) + 1 by omega,
        Nat.testBit_succ]
      exact this

theorem dz_decomp (w : Nat) (rv : List Nat) (hb : ∀ b ∈ rv, b < 2 ^ w) :
    (dropTrailingZeros w rv = [] ∧ ∀ b ∈ rv, b = 0) ∨
    (∃ k x r, rv = List.replicate k 0 ++ x :: r ∧
      dropTrailingZeros w rv = x :: r ∧ x ≠ 0) := by
  induction rv with
  | nil => exact Or.inl ⟨rfl, by simp⟩
  | cons a as ih =>
    rw [dropTrailingZeros]
    by_cases hc : countOnes w a ≠ 0
    · right
      refine ⟨0, a, as, by simp, by simp [hc], ?_⟩
      intro h0
      subst h0
      exact hc (countOnesAux_zero w)
    · have ha : a = 0 := by
        have := (countOnesAux_eq_zero_iff w a (hb a (by simp))).1 (by
          rw [countOnes] at hc
          omega)
        exact this
      rw [if_neg hc]
      rcases ih (fun b h => hb b (by simp [h])) with ⟨h1, h2⟩ | ⟨k, x, r, h1, h2, h3⟩
      · left
        refine ⟨h1, ?_⟩
        intro b hbmem
        rcases List.mem_cons.1 hbmem with rfl | hmem
        · exact ha
        · exact h2 b hmem
      · right
        refine ⟨k + 1, x, r, ?_, h2, h3⟩
        subst ha
        rw [h1]
        rfl

theorem compact_spec (w : Nat) (s : BitSet) (hw : 0 < w) (hB : Blocks w s) :
    (∀ x, getBit w (s.compact w) x = getBit w s x) ∧ Inv w (s.compact w) := by
  have hbmem : ∀ b ∈ s.vec.reverse, b < 2 ^ w := by
    intro b hbm
    exact mem_lt_of_getD w s.vec hB b (List.mem_reverse.1 hbm)
  rcases dz_decomp w s.vec.reverse hbmem with ⟨hdz, hzero⟩ | ⟨k, x, r, hrv, hdz, hx0⟩
  · have hvec0 : ∀ i, s.vec.getD i 0 = 0 := by
      intro i
      rcases Nat.lt_or_ge i s.vec.length with hi | hi
      · rw [List.getD_eq_getElem s.vec 0 hi]
        exact hzero _ (List.mem_reverse.2 (List.getElem_mem hi))
      · exact List.getD_eq_default s.vec 0 hi
    have hres : s.compact w = ⟨[], 0⟩ := by
      rw [BitSet.compact, hdz]
    rw [hres]
    refine ⟨?_, ?_, ?_, ?_, ?_⟩
    · intro y
      rw [getBit, getBit, hvec0]
      simp [List.getD]
    · simp [cnb_zero w hw]
    · intro i
      have h0 : (0 : Nat) < 2 ^ w := Nat.pow_pos (by omega)
      simp only [List.getD, List.getElem?_nil, Option.getD_none]
      exact h0
    · intro y _
      simp [getBit, List.getD, Nat.zero_testBit]
    · intro h
      simp at h
  · -- the kept prefix is `(x :: r).reverse`, the rest of the vector is zero
    have hvec : s.vec = (x :: r).reverse ++ List.replicate k 0 := by
      have := congrArg List.reverse hrv
      rwa [List.reverse_reverse, List.reverse_append, List.reverse_replicate] at this
    have hres : s.compact w
        = ⟨(x :: r).reverse, (x :: r).length * w - leadingZeros w x⟩ := by
      rw [BitSet.compact, hdz]
    have hxlt : x < 2 ^ w := hbmem x (by rw [hrv]; simp)
    have hbl1 : 0 < bitLenAux w x := bitLenAux_pos w x hx0 hxlt
    have hblw : bitLenAux w x ≤ w := bitLenAux_le w x hxlt
    set bl := bitLenAux w x with hbl
    have hnb' : (x :: r).length * w - leadingZeros w x = r.length * w + bl := by
      rw [leadingZeros, ← hbl]
      simp only [List.length_cons]
      rw [Nat.succ_mul]
      omega
    have hcv : (s.compact w).vec = (x :: r).reverse := by rw [hres]
    have hcn : (s.compact w).num_bits = r.length * w + bl := by
      rw [hres]
      exact hnb'
    have hkeptD : ∀ i, ((x :: r).reverse).getD i 0 = s.vec.getD i 0 := by
      intro i
      rw [hvec]
      rcases Nat.lt_or_ge i ((x :: r).reverse).length with hi | hi
      · rw [List.getD_append _ _ 0 i hi]
      · rw [List.getD_append_right _ _ 0 i hi, getD_replicate_zero,
          List.getD_eq_default _ _ hi]
    have hkeptlast : ((x :: r).reverse).getD r.length 0 = x := by
      have hxr : (x :: r).reverse = r.reverse ++ [x] := by simp
      rw [hxr, List.getD_append_right _ _ 0 _ (by simp)]
      simp
    have hgb : ∀ y, getBit w (s.compact w) y = getBit w s y := by
      intro y
      rw [getBit, getBit, hcv]
      exact congrArg (fun b => Nat.testBit b (y % w)) (hkeptD (y / w))
    refine ⟨hgb, ?_, ?_, ?_, ?_⟩
    · rw [hcv, hcn, cnb_mul_add w r.length bl hw hbl1 hblw]
      simp
    · intro i
      rw [hcv, hkeptD i]
      exact hB i
    · intro y hy
      rw [hcn] at hy
      rw [getBit, hcv]
      have hjw : y % w < w := Nat.mod_lt y hw
      have hdm : w * (y / w) + y % w = y := Nat.div_add_mod y w
      have hcomm : w * (y / w) = y / w * w := Nat.mul_comm w (y / w)
      rcases Nat.lt_or_ge (y / w) (r.length + 1) with hi | hi
      · rcases Nat.lt_or_ge (y / w) r.length with hi2 | hi2
        · exfalso
          have h1 : y / w + 1 ≤ r.length := hi2
          have h2 : (y / w + 1) * w ≤ r.length * w := Nat.mul_le_mul_right w h1
          have h3 : (y / w + 1) * w = y / w * w + w := Nat.succ_mul _ _
          omega
        · have hieq : y / w = r.length := by omega
          have hyeq : y = r.length * w + y % w := by
            rw [← hieq, Nat.mul_comm]
            omega
          rw [hieq, hkeptlast]
          have hjbl : bl ≤ y % w := by omega
          exact testBit_ge_false x bl (y % w) (lt_two_pow_bitLenAux w x hxlt) hjbl
      · rw [List.getD_eq_default _ _ (by simpa using hi), Nat.zero_testBit]
    · intro hpos
      rw [hcn]
      have hsub : r.length * w + bl - 1 = r.length * w + (bl - 1) := by omega
      rw [hsub, getBit, hcv, div_mul_add _ _ _ hw (by omega),
        mod_mul_add _ _ _ (by omega), hkeptlast]
      have := bitLenAux_testBit w x hx0 hxlt
      rwa [← hbl] at this

theorem compact_getBit (w : Nat) (s : BitSet) (hw : 0 < w) (hB : Blocks w s) :
    ∀ x, getBit w (s.compact w) x = getBit w s x :=
  (compact_spec w s hw hB).1

theorem compact_inv (w : Nat) (s : BitSet) (hw : 0 < w) (hB : Blocks w s) :
    Inv w (s.compact w) :=
  (compact_spec w s hw hB).2

theorem compact_congr (w : Nat) (a b : BitSet) (h : a.vec = b.vec) :
    a.compact w = b.compact w := by
  cases a
  cases b
  simp only at h
  subst h
  rfl

theorem dz_replicate_append (w k : Nat) (rv : List Nat) :
    dropTrailingZeros w (List.replicate k 0 ++ rv) = dropTrailingZeros w rv := by
  induction k with
  | zero => rfl
  | succ n ih =>
    have : List.replicate (n + 1) 0 ++ rv = 0 :: (List.replicate n 0 ++ rv) := by
      simp [List.replicate_succ]
    rw [this, dropTrailingZeros, countOnes, countOnesAux_zero]
    simpa using ih

/-- Padding a compacted (invariant-satisfying) state with zero blocks and
then compacting recovers the state exactly, whatever `num_bits` value the
padded intermediate carries — the heart of `remove`'s length restoration. -/
theorem compact_padded (w : Nat) (s : BitSet) (k m : Nat) (hw : 0 < w)
    (hInv : Inv w s) :
    BitSet.compact w ⟨s.vec ++ List.replicate k 0, m⟩ = s := by
  obtain ⟨hlen, hB, hhigh, hbound⟩ := hInv
  have hrev : (⟨s.vec ++ List.replicate k 0, m⟩ : BitSet).vec.reverse
      = List.replicate k 0 ++ s.vec.reverse := by
    simp only [List.reverse_append, List.reverse_replicate]
  rcases hsv : s.vec.reverse with _ | ⟨L, rest⟩
  · have hnil : s.vec = [] := by
      have := congrArg List.reverse hsv
      simpa using this
    have hnb : s.num_bits = 0 := by
      rw [hnil] at hlen
      exact (cnb_eq_zero_iff w s.num_bits hw).1 (by simpa using hlen.symm)
    have : BitSet.compact w ⟨s.vec ++ List.replicate k 0, m⟩ = ⟨[], 0⟩ := by
      rw [BitSet.compact, hrev, hsv, dz_replicate_append]
      rfl
    rw [this]
    cases s
    simp only at hnil hnb
    rw [hnil, hnb]
  · -- the original vector is nonempty; its top block holds the boundary bit
    have hvec : s.vec = rest.reverse ++ [L] := by
      have := congrArg List.reverse hsv
      simpa using this
    have hlen1 : s.vec.length = rest.length + 1 := by
      rw [hvec]
      simp
    have hnb0 : 0 < s.num_bits := by
      rcases Nat.eq_zero_or_pos s.num_bits with h0 | h0
      · rw [h0, cnb_zero w hw] at hlen
        omega
      · exact h0
    have hdiv : (s.num_bits - 1) / w = rest.length := by
      have := cnb_pred_div w s.num_bits hw hnb0
      rw [this] at hlen
      omega
    have hgetL : s.vec.getD rest.length 0 = L := by
      rw [hvec, List.getD_append_right _ _ 0 _ (by simp)]
      simp
    have hLb := hbound hnb0
    rw [getBit, hdiv, hgetL] at hLb
    have hL0 : L ≠ 0 := by
      intro h0
      rw [h0, Nat.zero_testBit] at hLb
      exact Bool.false_ne_true hLb
    have hLlt : L < 2 ^ w := by
      have := hB rest.length
      rwa [hgetL] at this
    have hco : countOnes w L ≠ 0 := by
      rw [countOnes]
      intro h0
      exact hL0 ((countOnesAux_eq_zero_iff w L hLlt).1 h0)
    have hres : BitSet.compact w ⟨s.vec ++ List.replicate k 0, m⟩
        = ⟨(L :: rest).reverse, (L :: rest).length * w - leadingZeros w L⟩ := by
      rw [BitSet.compact, hrev, hsv, dz_replicate_append, dropTrailingZeros,
        if_pos hco]
    -- the recomputed bit length of the top block records `num_bits` exactly
    have hmw : s.num_bits - 1 = rest.length * w + (s.num_bits - 1) % w := by
      have h1 : w * ((s.num_bits - 1) / w) + (s.num_bits - 1) % w = s.num_bits - 1 :=
        Nat.div_add_mod _ w
      rw [hdiv, Nat.mul_comm] at h1
      omega
    have hbl : bitLenAux w L = (s.num_bits - 1) % w + 1 := by
      apply bitLenAux_eq w L ((s.num_bits - 1) % w) _ _ hLlt
      · exact testBit_true_ge L _ hLb
      · apply Nat.lt_pow_two_of_testBit
        intro j hj
        rcases Nat.lt_or_ge j w with hjw | hjw
        · have hpos : s.num_bits ≤ rest.length * w + j := by omega
          have := hhigh (rest.length * w + j) hpos
          rwa [getBit, div_mul_add _ _ _ hw hjw, mod_mul_add _ _ _ hjw, hgetL]
            at this
        · exact testBit_ge_false L w j hLlt hjw
    rw [hres]
    have hnbfin : (L :: rest).length * w - leadingZeros w L = s.num_bits := by
      rw [leadingZeros, hbl]
      simp only [List.length_cons]
      rw [Nat.succ_mul]
      have hmod : (s.num_bits - 1) % w < w := Nat.mod_lt _ hw
      omega
    rw [hnbfin]
    have hvfin : (L :: rest).reverse = s.vec := by
      rw [hvec]
      simp
    rw [hvfin]

/-- On an invariant-satisfying state, `compact` is the identity. -/
theorem compact_of_inv (w : Nat) (s : BitSet) (hw : 0 < w) (hInv : Inv w s) :
    s.compact w = s := by
  have h := compact_padded w s 0 s.num_bits hw hInv
  have hcongr : s.compact w = BitSet.compact w ⟨s.vec ++ List.replicate 0 0, s.num_bits⟩ := by
    apply compact_congr
    simp
  rw [hcongr, h]

/-! ## Insertion -/

theorem pad_eq (l : List Nat) (n : Nat) :
    (if l.length < n then l ++ List.replicate (n - l.length) 0 else l)
      = l ++ List.replicate (max l.length n - l.length) 0 := by
  split
  · rename_i h
    rw [Nat.max_eq_right (le_of_lt h)]
  · rename_i h
    rw [Nat.max_eq_left (by omega)]
    simp

theorem pad_length (l : List Nat) (n : Nat) :
    (if l.length < n then l ++ List.replicate (n - l.length) 0 else l).length
      = max l.length n := by
  rw [pad_eq]
  simp

theorem pad_getD (l : List Nat) (n i : Nat) :
    (if l.length < n then l ++ List.replicate (n - l.length) 0 else l).getD i 0
      = l.getD i 0 := by
  rw [pad_eq]
  rcases Nat.lt_or_ge i l.length with h | h
  · rw [List.getD_append _ _ 0 i h]
  · rw [List.getD_append_right _ _ 0 i h, getD_replicate_zero,
      List.getD_eq_default _ _ h]

theorem insert_fst (w : Nat) (s : BitSet) (v : Nat) :
    (s.insert w v).1 =
      ⟨(if s.vec.length < computeNumBlocks w (v + 1)
          then s.vec ++ List.replicate (computeNumBlocks w (v + 1) - s.vec.length) 0
          else s.vec).set (v / w)
        ((if s.vec.length < computeNumBlocks w (v + 1)
          then s.vec ++ List.replicate (computeNumBlocks w (v + 1) - s.vec.length) 0
          else s.vec).getD (v / w) 0 ||| (1 <<< (v % w))),
       if s.num_bits < v + 1 then v + 1 else s.num_bits⟩ := rfl

theorem insert_num_bits (w : Nat) (s : BitSet) (v : Nat) :
    (s.insert w v).1.num_bits = max s.num_bits (v + 1) := by
  rw [insert_fst]
  simp only
  rcases Nat.lt_or_ge s.num_bits (v + 1) with h | h
  · rw [if_pos h, Nat.max_eq_right (by omega)]
  · rw [if_neg (by omega), Nat.max_eq_left (by omega)]

theorem insert_vec_length (w : Nat) (s : BitSet) (v : Nat) :
    (s.insert w v).1.vec.length = max s.vec.length (computeNumBlocks w (v + 1)) := by
  rw [insert_fst]
  simp only [List.length_set]
  exact pad_length s.vec _

theorem div_mod_eq_iff (w a b : Nat) (_hw : 0 < w) :
    (a / w = b / w ∧ a % w = b % w) ↔ a = b := by
  constructor
  · rintro ⟨h1, h2⟩
    have ha := Nat.div_add_mod a w
    have hb := Nat.div_add_mod b w
    rw [h1, h2] at ha
    omega
  · rintro rfl
    exact ⟨rfl, rfl⟩

theorem insert_getBit (w : Nat) (s : BitSet) (v : Nat) (hw : 0 < w) (y : Nat) :
    getBit w (s.insert w v).1 y = (getBit w s y || decide (y = v)) := by
  rw [getBit, getBit, insert_fst]
  simp only
  have hrange : v / w <
      (if s.vec.length < computeNumBlocks w (v + 1)
        then s.vec ++ List.replicate (computeNumBlocks w (v + 1) - s.vec.length) 0
        else s.vec).length := by
    rw [pad_length]
    exact lt_of_lt_of_le (div_lt_cnb w v (v + 1) hw (by omega)) (le_max_right _ _)
  rcases eq_or_ne (y / w) (v / w) with hdiv | hdiv
  · rw [hdiv, getD_set_self _ _ _ hrange, Nat.testBit_lor, pad_getD,
      Nat.one_shiftLeft, Nat.testBit_two_pow]
    congr 1
    rcases eq_or_ne y v with rfl | hne
    · simp
    · have : ¬(v % w = y % w) := by
        intro hmod
        exact hne ((div_mod_eq_iff w y v hw).1 ⟨hdiv, hmod.symm⟩)
      simp [this, hne]
  · rw [getD_set_ne _ _ _ _ (Ne.symm hdiv), pad_getD]
    have : y ≠ v := by
      intro h
      exact hdiv (by rw [h])
    simp [this]

theorem insert_inv (w : Nat) (s : BitSet) (v : Nat) (hw : 0 < w) (hInv : Inv w s) :
    Inv w (s.insert w v).1 := by
  obtain ⟨hlen, hB, hhigh, hbound⟩ := hInv
  refine ⟨?_, ?_, ?_, ?_⟩
  · rw [insert_vec_length, insert_num_bits, hlen]
    rcases Nat.le_total s.num_bits (v + 1) with h | h
    · rw [Nat.max_eq_right h, Nat.max_eq_right (cnb_mono w _ _ hw h)]
    · rw [Nat.max_eq_left h, Nat.max_eq_left (cnb_mono w _ _ hw h)]
  · intro i
    rw [insert_fst]
    simp only
    rcases eq_or_ne i (v / w) with rfl | hne
    · rcases Nat.lt_or_ge (v / w)
        (if s.vec.length < computeNumBlocks w (v + 1)
          then s.vec ++ List.replicate (computeNumBlocks w (v + 1) - s.vec.length) 0
          else s.vec).length with hr | hr
      · rw [getD_set_self _ _ _ hr, pad_getD]
        exact Nat.or_lt_two_pow (hB _)
          (by
            rw [Nat.one_shiftLeft]
            exact Nat.pow_lt_pow_right (by omega) (Nat.mod_lt v hw))
      · rw [List.set_eq_of_length_le (by omega), pad_getD]
        exact hB _
    · rw [getD_set_ne _ _ _ _ (Ne.symm hne), pad_getD]
      exact hB _
  · intro y hy
    rw [insert_num_bits] at hy
    rw [insert_getBit w s v hw y]
    have h1 : getBit w s y = false := hhigh y (le_trans (le_max_left _ _) hy)
    have h2 : y ≠ v := by omega
    simp [h1, h2]
  · intro hpos
    rw [insert_num_bits] at hpos ⊢
    rw [insert_getBit w s v hw]
    rcases Nat.le_total s.num_bits (v + 1) with h | h
    · rw [Nat.max_eq_right h]
      simp
    · rw [Nat.max_eq_left h]
      rw [hbound (by omega)]
      simp

/-! ## Removal -/

theorem remove_ge (w : Nat) (s : BitSet) (v : Nat) (h : s.num_bits ≤ v) :
    s.remove w v = (s, false) := by
  rw [BitSet.remove, if_pos h]

theorem remove_lt_vec (w : Nat) (s : BitSet) (v : Nat) (h : v < s.num_bits) :
    (s.remove w v).1 =
      (if s.containsUnchecked w v && (v + 1 == s.num_bits)
        then (⟨s.vec.set (v / w)
            (s.vec.getD (v / w) 0 &&& complw w (1 <<< (v % w))), s.num_bits⟩ : BitSet).compact w
        else ⟨s.vec.set (v / w)
            (s.vec.getD (v / w) 0 &&& complw w (1 <<< (v % w))), s.num_bits⟩) := by
  have hge : ¬ v ≥ s.num_bits := by omega
  simp only [BitSet.remove, if_neg hge]
  split <;> rfl

theorem cleared_getBit (w : Nat) (s : BitSet) (v : Nat) (hw : 0 < w)
    (hlen : v / w < s.vec.length) (y : Nat) :
    getBit w ⟨s.vec.set (v / w)
        (s.vec.getD (v / w) 0 &&& complw w (1 <<< (v % w))), s.num_bits⟩ y
      = (getBit w s y && !(decide (y = v))) := by
  rw [getBit, getBit]
  simp only
  rcases eq_or_ne (y / w) (v / w) with hdiv | hdiv
  · rw [hdiv, getD_set_self _ _ _ hlen, Nat.testBit_land,
      testBit_complw w _ _ (Nat.mod_lt y hw), Nat.one_shiftLeft, Nat.testBit_two_pow]
    congr 1
    rcases eq_or_ne y v with rfl | hne
    · simp
    · have : ¬(v % w = y % w) := by
        intro hmod
        exact hne ((div_mod_eq_iff w y v hw).1 ⟨hdiv, hmod.symm⟩)
      simp [this, hne]
  · rw [getD_set_ne _ _ _ _ (Ne.symm hdiv)]
    have : y ≠ v := by
      intro h
      exact hdiv (by rw [h])
    simp [this]

theorem cleared_blocks (w : Nat) (s : BitSet) (v : Nat) (hB : Blocks w s) :
    Blocks w ⟨s.vec.set (v / w)
      (s.vec.getD (v / w) 0 &&& complw w (1 <<< (v % w))), s.num_bits⟩ := by
  intro i
  simp only
  rcases eq_or_ne i (v / w) with rfl | hne
  · rcases Nat.lt_or_ge (v / w) s.vec.length with hr | hr
    · rw [getD_set_self _ _ _ hr]
      exact land_lt_two_pow_left _ _ w (hB _)
    · rw [List.set_eq_of_length_le (by omega)]
      exact hB _
  · rw [getD_set_ne _ _ _ _ (Ne.symm hne)]
    exact hB _

theorem remove_getBit (w : Nat) (s : BitSet) (v : Nat) (hw : 0 < w)
    (hInv : Inv w s) (y : Nat) :
    getBit w (s.remove w v).1 y = (getBit w s y && !(decide (y = v))) := by
  rcases Nat.lt_or_ge v s.num_bits with hv | hv
  · have hlen : v / w < s.vec.length := by
      rw [hInv.1]
      exact div_lt_cnb w v s.num_bits hw hv
    rw [remove_lt_vec w s v hv]
    split
    · rw [compact_getBit w _ hw (cleared_blocks w s v hInv.2.1)]
      exact cleared_getBit w s v hw hlen y
    · exact cleared_getBit w s v hw hlen y
  · rw [remove_ge w s v hv]
    rcases eq_or_ne y v with rfl | hne
    · simp [hInv.2.2.1 y hv]
    · simp [hne]

theorem remove_inv (w : Nat) (s : BitSet) (v : Nat) (hw : 0 < w) (hInv : Inv w s) :
    Inv w (s.remove w v).1 := by
  rcases Nat.lt_or_ge v s.num_bits with hv | hv
  · have hlen : v / w < s.vec.length := by
      rw [hInv.1]
      exact div_lt_cnb w v s.num_bits hw hv
    rw [remove_lt_vec w s v hv]
    split
    · exact compact_inv w _ hw (cleared_blocks w s v hInv.2.1)
    · rename_i hcond
      obtain ⟨hl, hB, hhigh, hbound⟩ := hInv
      refine ⟨by simpa using hl, cleared_blocks w s v hB, ?_, ?_⟩
      · intro y hy
        simp only at hy
        rw [cleared_getBit w s v hw hlen y, hhigh y hy]
        rfl
      · intro hpos
        simp only at hpos ⊢
        rw [cleared_getBit w s v hw hlen _, hbound hpos]
        have hne : s.num_bits - 1 ≠ v := by
          intro heq
          apply hcond
          rw [containsUnchecked_eq_getBit]
          have hveq : v + 1 = s.num_bits := by omega
          have : getBit w s v = true := by
            rw [show v = s.num_bits - 1 by omega]
            exact hbound hpos
          simp [this, hveq]
        simp [hne]
  · rw [remove_ge w s v hv]
    exact hInv

/-! ## The shared operator body -/

theorem opBlocks_length (f : Nat → Nat → Nat) (n : Nat) (l r : List Nat) :
    (opBlocks f n l r).length = l.length := by
  induction n generalizing l r with
  | zero => rfl
  | succ n ih =>
    cases l with
    | nil => rfl
    | cons a l => simp [opBlocks, ih]

theorem opBlocks_getD (f : Nat → Nat → Nat) (n : Nat) (l r : List Nat) (i : Nat)
    (hn : n ≤ l.length) :
    (opBlocks f n l r).getD i 0
      = if i < n then f (l.getD i 0) (r.getD i 0) else l.getD i 0 := by
  induction n generalizing l r i with
  | zero => simp [opBlocks]
  | succ n ih =>
    cases l with
    | nil => simp at hn
    | cons a l =>
      cases i with
      | zero => cases r <;> simp [opBlocks, List.getD]
      | succ i =>
        simp only [opBlocks, List.getD_cons_succ]
        rw [ih l r.tail i (by simpa using hn), getD_tail]
        simp

theorem nb_le_of_cnb_le (w n y : Nat) (hw : 0 < w)
    (h : computeNumBlocks w n ≤ y / w) : n ≤ y :=
  le_trans ((cnb_le_iff w n _ hw).1 h) (Nat.div_mul_le_self y w)

theorem applyOp_num_bits (f : Nat → Nat → Nat) (w : Nat) (lhs : BitSet)
    (rv : List Nat) (rn : Nat) :
    (applyOp f w lhs rv rn).num_bits = lhs.num_bits := rfl

theorem applyOp_vec_length (f : Nat → Nat → Nat) (w : Nat) (lhs : BitSet)
    (rv : List Nat) (rn : Nat) :
    (applyOp f w lhs rv rn).vec.length = lhs.vec.length :=
  opBlocks_length f _ _ _

theorem applyOp_getD (f : Nat → Nat → Nat) (w : Nat) (lhs : BitSet)
    (rv : List Nat) (rn : Nat) (i : Nat)
    (hn : computeNumBlocks w (min lhs.num_bits rn) ≤ lhs.vec.length) :
    (applyOp f w lhs rv rn).vec.getD i 0
      = if i < computeNumBlocks w (min lhs.num_bits rn)
        then f (lhs.vec.getD i 0) (rv.getD i 0) else lhs.vec.getD i 0 :=
  opBlocks_getD f _ _ _ i hn

theorem applyOp_getBit (f : Nat → Nat → Nat) (w : Nat) (lhs : BitSet)
    (rv : List Nat) (rn : Nat) (y : Nat)
    (hn : computeNumBlocks w (min lhs.num_bits rn) ≤ lhs.vec.length) :
    getBit w (applyOp f w lhs rv rn) y
      = if y / w < computeNumBlocks w (min lhs.num_bits rn)
        then (f (lhs.vec.getD (y / w) 0) (rv.getD (y / w) 0)).testBit (y % w)
        else getBit w lhs y := by
  rw [getBit, applyOp_getD f w lhs rv rn _ hn]
  split <;> rfl

theorem applyOp_blocks (f : Nat → Nat → Nat) (w : Nat) (lhs : BitSet)
    (rv : List Nat) (rn : Nat)
    (hf : ∀ a b, a < 2 ^ w → b < 2 ^ w → f a b < 2 ^ w)
    (hl : Blocks w lhs) (hr : ∀ i, rv.getD i 0 < 2 ^ w)
    (hn : computeNumBlocks w (min lhs.num_bits rn) ≤ lhs.vec.length) :
    Blocks w (applyOp f w lhs rv rn) := by
  intro i
  rw [applyOp_getD f w lhs rv rn i hn]
  split
  · exact hf _ _ (hl i) (hr i)
  · exact hl i

/-! ## Union -/

theorem unionBody_getBit (w : Nat) (a b : BitSet) (hw : 0 < w)
    (hIa : Inv w a) (hIb : Inv w b) (h : b.num_bits ≤ a.num_bits) (y : Nat) :
    getBit w (unionBody w a b.vec b.num_bits) y = (getBit w a y || getBit w b y) := by
  have hmin : min a.num_bits b.num_bits = b.num_bits := Nat.min_eq_right h
  have hn : computeNumBlocks w (min a.num_bits b.num_bits) ≤ a.vec.length := by
    rw [hmin, hIa.1]
    exact cnb_mono w _ _ hw h
  rw [unionBody, applyOp_getBit _ w a b.vec b.num_bits y hn, hmin]
  split
  · rw [Nat.testBit_lor]
    rfl
  · rename_i hge
    have : b.num_bits ≤ y := nb_le_of_cnb_le w b.num_bits y hw (by omega)
    rw [hIb.2.2.1 y this]
    simp

theorem unionBody_inv (w : Nat) (a b : BitSet) (hw : 0 < w)
    (hIa : Inv w a) (hIb : Inv w b) (h : b.num_bits ≤ a.num_bits) :
    Inv w (unionBody w a b.vec b.num_bits) := by
  have hmin : min a.num_bits b.num_bits = b.num_bits := Nat.min_eq_right h
  have hn : computeNumBlocks w (min a.num_bits b.num_bits) ≤ a.vec.length := by
    rw [hmin, hIa.1]
    exact cnb_mono w _ _ hw h
  have hnb : (unionBody w a b.vec b.num_bits).num_bits = a.num_bits := rfl
  refine ⟨?_, ?_, ?_, ?_⟩
  · rw [unionBody, applyOp_vec_length, applyOp_num_bits]
    exact hIa.1
  · exact applyOp_blocks _ w a b.vec b.num_bits
      (fun x y hx hy => Nat.or_lt_two_pow hx hy) hIa.2.1 hIb.2.1 hn
  · intro y hy
    rw [hnb] at hy
    rw [unionBody_getBit w a b hw hIa hIb h y, hIa.2.2.1 y hy,
      hIb.2.2.1 y (le_trans h hy)]
    rfl
  · intro hpos
    rw [hnb] at hpos ⊢
    rw [unionBody_getBit w a b hw hIa hIb h _, hIa.2.2.2 hpos]
    rfl

theorem unionRef_getBit (w : Nat) (a b : BitSet) (hw : 0 < w)
    (hIa : Inv w a) (hIb : Inv w b) (y : Nat) :
    getBit w (unionRef w a b) y = (getBit w a y || getBit w b y) := by
  rw [unionRef]
  split
  · rename_i hlt
    rw [unionBody_getBit w b a hw hIb hIa (by omega) y, Bool.or_comm]
  · rename_i hge
    exact unionBody_getBit w a b hw hIa hIb (by omega) y

theorem unionRef_inv (w : Nat) (a b : BitSet) (hw : 0 < w)
    (hIa : Inv w a) (hIb : Inv w b) : Inv w (unionRef w a b) := by
  rw [unionRef]
  split
  · exact unionBody_inv w b a hw hIb hIa (by omega)
  · exact unionBody_inv w a b hw hIa hIb (by omega)

theorem unionAssign_eq (w : Nat) (a b : BitSet) : unionAssign w a b = unionRef w a b := rfl

theorem unionOwned_eq (w : Nat) (a b : BitSet) : unionOwned w a b = unionRef w a b := rfl

theorem ext_vec_getD (a b : BitSet) (i : Nat) :
    (a.vec ++ b.vec.drop a.vec.length).getD i 0
      = if i < a.vec.length then a.vec.getD i 0 else b.vec.getD i 0 := by
  split
  · rename_i h
    rw [List.getD_append _ _ 0 i h]
  · rename_i h
    rw [List.getD_append_right _ _ 0 i (by omega), getD_drop]
    congr 1
    omega

theorem ext_state_getBit (w : Nat) (a b : BitSet) (m y : Nat) :
    getBit w ⟨a.vec ++ b.vec.drop a.vec.length, m⟩ y
      = if y / w < a.vec.length then getBit w a y else getBit w b y := by
  rw [getBit]
  simp only
  rw [ext_vec_getD a b (y / w)]
  split <;> rfl

theorem ext_blocks (w : Nat) (a b : BitSet) (ha : Blocks w a) (hb : Blocks w b) :
    ∀ i, (a.vec ++ b.vec.drop a.vec.length).getD i 0 < 2 ^ w := by
  intro i
  rw [ext_vec_getD a b i]
  split
  · exact ha i
  · exact hb i

theorem ext_vec_length (w : Nat) (a b : BitSet) (hw : 0 < w)
    (hIa : Inv w a) (hIb : Inv w b) (hlt : a.num_bits < b.num_bits) :
    (a.vec ++ b.vec.drop a.vec.length).length = b.vec.length := by
  have halen : a.vec.length ≤ b.vec.length := by
    rw [hIa.1, hIb.1]
    exact cnb_mono w _ _ hw (by omega)
  simp only [List.length_append, List.length_drop]
  omega

/-- The bit semantics of the extension branch shared by `|= &rhs` and
`^= &rhs`: the left operand adopts the right one's high blocks, then the
block operator runs over the old overlap. -/
theorem ext_applyOp_getBit (f : Nat → Nat → Nat) (g : Bool → Bool → Bool)
    (w : Nat) (a b : BitSet) (hw : 0 < w)
    (hIa : Inv w a) (hIb : Inv w b) (hlt : a.num_bits < b.num_bits)
    (hfg : ∀ x z j, j < w → (f x z).testBit j = g (x.testBit j) (z.testBit j))
    (hgid : ∀ x, g false x = x) (y : Nat) :
    getBit w (applyOp f w ⟨a.vec ++ b.vec.drop a.vec.length, b.num_bits⟩
        b.vec a.num_bits) y
      = g (getBit w a y) (getBit w b y) := by
  have hmin : min b.num_bits a.num_bits = a.num_bits := Nat.min_eq_right (by omega)
  have hn : computeNumBlocks w (min b.num_bits a.num_bits)
      ≤ (a.vec ++ b.vec.drop a.vec.length).length := by
    rw [hmin, ← hIa.1, ext_vec_length w a b hw hIa hIb hlt, hIa.1, hIb.1]
    exact cnb_mono w _ _ hw (by omega)
  have happ := applyOp_getBit f w ⟨a.vec ++ b.vec.drop a.vec.length, b.num_bits⟩
    b.vec a.num_bits y hn
  dsimp only at happ
  rw [happ, hmin, ← hIa.1]
  split
  · rename_i hylt
    rw [ext_vec_getD a b (y / w), if_pos hylt,
      hfg _ _ _ (Nat.mod_lt y hw)]
    rfl
  · rename_i hyge
    have hay : getBit w a y = false := by
      apply hIa.2.2.1
      rw [hIa.1] at hyge
      exact nb_le_of_cnb_le w a.num_bits y hw (by omega)
    rw [ext_state_getBit w a b b.num_bits y, if_neg hyge, hay, hgid]

theorem unionAssignRef_getBit (w : Nat) (a b : BitSet) (hw : 0 < w)
    (hIa : Inv w a) (hIb : Inv w b) (y : Nat) :
    getBit w (unionAssignRef w a b) y = (getBit w a y || getBit w b y) := by
  rw [unionAssignRef]
  split
  · rename_i hlt
    rw [unionBody]
    exact ext_applyOp_getBit (fun x z => x ||| z) (fun x z => x || z) w a b hw
      hIa hIb hlt (fun x z j _ => Nat.testBit_lor x z j) (fun x => Bool.false_or x) y
  · rename_i hge
    exact unionBody_getBit w a b hw hIa hIb (by omega) y

theorem unionAssignRef_inv (w : Nat) (a b : BitSet) (hw : 0 < w)
    (hIa : Inv w a) (hIb : Inv w b) : Inv w (unionAssignRef w a b) := by
  have hgb := unionAssignRef_getBit w a b hw hIa hIb
  have hnbits : (unionAssignRef w a b).num_bits = max a.num_bits b.num_bits := by
    rw [unionAssignRef]
    split
    · rename_i hlt
      rw [unionBody, applyOp_num_bits]
      dsimp only
      omega
    · rename_i hge
      rw [unionBody, applyOp_num_bits]
      omega
  have hlen : (unionAssignRef w a b).vec.length
      = computeNumBlocks w (max a.num_bits b.num_bits) := by
    rw [unionAssignRef]
    split
    · rename_i hlt
      rw [unionBody, applyOp_vec_length]
      dsimp only
      rw [ext_vec_length w a b hw hIa hIb hlt, Nat.max_eq_right (by omega), hIb.1]
    · rename_i hge
      rw [unionBody, applyOp_vec_length, Nat.max_eq_left (by omega)]
      exact hIa.1
  refine ⟨by rw [hnbits, hlen], ?_, ?_, ?_⟩
  · rw [unionAssignRef]
    split
    · rename_i hlt
      apply applyOp_blocks _ w ⟨a.vec ++ b.vec.drop a.vec.length, b.num_bits⟩
        b.vec a.num_bits (fun x z hx hz => Nat.or_lt_two_pow hx hz)
        (ext_blocks w a b hIa.2.1 hIb.2.1) hIb.2.1
      dsimp only
      rw [Nat.min_eq_right (by omega), ← hIa.1,
        ext_vec_length w a b hw hIa hIb hlt, hIa.1, hIb.1]
      exact cnb_mono w _ _ hw (by omega)
    · rename_i hge
      apply applyOp_blocks _ w a b.vec b.num_bits
        (fun x z hx hz => Nat.or_lt_two_pow hx hz) hIa.2.1 hIb.2.1
      rw [Nat.min_eq_right (by omega), hIa.1]
      exact cnb_mono w _ _ hw (by omega)
  · intro y hy
    rw [hnbits] at hy
    rw [hgb y, hIa.2.2.1 y (le_trans (le_max_left _ _) hy),
      hIb.2.2.1 y (le_trans (le_max_right _ _) hy)]
    rfl
  · intro hpos
    rw [hnbits] at hpos ⊢
    rw [hgb _]
    rcases Nat.le_total a.num_bits b.num_bits with h | h
    · rw [Nat.max_eq_right h, hIb.2.2.2 (by omega)]
      simp
    · rw [Nat.max_eq_left h, hIa.2.2.2 (by omega)]
      simp

/-! ## Intersection -/

theorem take_blocks (w : Nat) (l : List Nat) (k : Nat) (hl : ∀ i, l.getD i 0 < 2 ^ w) :
    ∀ i, (l.take k).getD i 0 < 2 ^ w := by
  intro i
  rcases Nat.lt_or_ge i k with h | h
  · rw [getD_take_lt l k i h]
    exact hl i
  · rw [getD_take_ge l k i h]
    exact Nat.pow_pos (by omega)

theorem interBody_inv (w : Nat) (lhs : BitSet) (rv : List Nat) (rn : Nat)
    (hw : 0 < w) (hl : Blocks w lhs) (hr : ∀ i, rv.getD i 0 < 2 ^ w)
    (hn : computeNumBlocks w (min lhs.num_bits rn) ≤ lhs.vec.length) :
    Inv w (interBody w lhs rv rn) :=
  compact_inv w _ hw (applyOp_blocks _ w lhs rv rn
    (fun x z hx _ => land_lt_two_pow_left x z w hx) hl hr hn)

theorem xorBody_inv (w : Nat) (lhs : BitSet) (rv : List Nat) (rn : Nat)
    (hw : 0 < w) (hl : Blocks w lhs) (hr : ∀ i, rv.getD i 0 < 2 ^ w)
    (hn : computeNumBlocks w (min lhs.num_bits rn) ≤ lhs.vec.length) :
    Inv w (xorBody w lhs rv rn) :=
  compact_inv w _ hw (applyOp_blocks _ w lhs rv rn
    (fun x z hx hz => Nat.xor_lt_two_pow hx hz) hl hr hn)

theorem diffBody_inv (w : Nat) (lhs : BitSet) (rv : List Nat) (rn : Nat)
    (hw : 0 < w) (hl : Blocks w lhs) (hr : ∀ i, rv.getD i 0 < 2 ^ w)
    (hn : computeNumBlocks w (min lhs.num_bits rn) ≤ lhs.vec.length) :
    Inv w (diffBody w lhs rv rn) :=
  compact_inv w _ hw (applyOp_blocks _ w lhs rv rn
    (fun x z hx _ => land_lt_two_pow_left x _ w hx) hl hr hn)

theorem interBody_getBit (w : Nat) (a b : BitSet) (hw : 0 < w)
    (hIa : Inv w a) (hIb : Inv w b) (h : a.num_bits ≤ b.num_bits) (y : Nat) :
    getBit w (interBody w a b.vec b.num_bits) y = (getBit w a y && getBit w b y) := by
  have hmin : min a.num_bits b.num_bits = a.num_bits := Nat.min_eq_left h
  have hn : computeNumBlocks w (min a.num_bits b.num_bits) ≤ a.vec.length := by
    rw [hmin, hIa.1]
  rw [interBody, compact_getBit w _ hw (applyOp_blocks _ w a b.vec b.num_bits
    (fun x z hx _ => land_lt_two_pow_left x z w hx) hIa.2.1 hIb.2.1 hn),
    applyOp_getBit _ w a b.vec b.num_bits y hn, hmin]
  split
  · rw [Nat.testBit_land]
    rfl
  · rename_i hge
    have hay : getBit w a y = false :=
      hIa.2.2.1 y (nb_le_of_cnb_le w a.num_bits y hw (by omega))
    rw [hay]
    rfl

theorem interRef_getBit (w : Nat) (a b : BitSet) (hw : 0 < w)
    (hIa : Inv w a) (hIb : Inv w b) (y : Nat) :
    getBit w (interRef w a b) y = (getBit w a y && getBit w b y) := by
  rw [interRef]
  split
  · rename_i hgt
    rw [interBody_getBit w b a hw hIb hIa (by omega) y, Bool.and_comm]
  · rename_i hle
    exact interBody_getBit w a b hw hIa hIb (by omega) y

theorem interRef_inv (w : Nat) (a b : BitSet) (hw : 0 < w)
    (hIa : Inv w a) (hIb : Inv w b) : Inv w (interRef w a b) := by
  rw [interRef]
  split
  · exact interBody_inv w b a.vec a.num_bits hw hIb.2.1 hIa.2.1
      (by rw [Nat.min_eq_left (by omega), hIb.1])
  · exact interBody_inv w a b.vec b.num_bits hw hIa.2.1 hIb.2.1
      (by rw [Nat.min_eq_left (by omega), hIa.1])

theorem interAssign_eq (w : Nat) (a b : BitSet) : interAssign w a b = interRef w a b := rfl

theorem interOwned_eq (w : Nat) (a b : BitSet) : interOwned w a b = interRef w a b := rfl

theorem trunc_state_lemmas (w : Nat) (a b : BitSet) (hw : 0 < w)
    (hIa : Inv w a) (hIb : Inv w b) (hgt : a.num_bits > b.num_bits) :
    (a.vec.take b.vec.length).length = b.vec.length := by
  have : b.vec.length ≤ a.vec.length := by
    rw [hIa.1, hIb.1]
    exact cnb_mono w _ _ hw (by omega)
  simp only [List.length_take]
  omega

theorem interAssignRef_getBit (w : Nat) (a b : BitSet) (hw : 0 < w)
    (hIa : Inv w a) (hIb : Inv w b) (y : Nat) :
    getBit w (interAssignRef w a b) y = (getBit w a y && getBit w b y) := by
  rw [interAssignRef]
  split
  · rename_i hgt
    have hmin : min b.num_bits a.num_bits = b.num_bits := Nat.min_eq_left (by omega)
    have hn : computeNumBlocks w (min b.num_bits a.num_bits)
        ≤ (a.vec.take b.vec.length).length := by
      rw [hmin, trunc_state_lemmas w a b hw hIa hIb hgt, hIb.1]
    have hbl : ∀ i, (a.vec.take b.vec.length).getD i 0 < 2 ^ w :=
      take_blocks w a.vec b.vec.length hIa.2.1
    rw [interBody, compact_getBit w _ hw (applyOp_blocks _ w
      ⟨a.vec.take b.vec.length, b.num_bits⟩ b.vec a.num_bits
      (fun x z hx _ => land_lt_two_pow_left x z w hx) hbl hIb.2.1 hn)]
    have happ := applyOp_getBit (fun x z => x &&& z) w
      ⟨a.vec.take b.vec.length, b.num_bits⟩ b.vec a.num_bits y hn
    dsimp only at happ
    rw [happ, hmin]
    split
    · rename_i hylt
      rw [getD_take_lt a.vec b.vec.length (y / w)
        (by rw [hIb.1]; exact hylt), Nat.testBit_land]
      rfl
    · rename_i hyge
      rw [getBit]
      dsimp only
      rw [getD_take_ge a.vec b.vec.length (y / w) (by rw [hIb.1]; omega),
        Nat.zero_testBit]
      have hby : getBit w b y = false :=
        hIb.2.2.1 y (nb_le_of_cnb_le w b.num_bits y hw (by omega))
      rw [hby]
      simp
  · rename_i hle
    exact interBody_getBit w a b hw hIa hIb (by omega) y

theorem interAssignRef_inv (w : Nat) (a b : BitSet) (hw : 0 < w)
    (hIa : Inv w a) (hIb : Inv w b) : Inv w (interAssignRef w a b) := by
  rw [interAssignRef]
  split
  · rename_i hgt
    apply interBody_inv w ⟨a.vec.take b.vec.length, b.num_bits⟩ b.vec a.num_bits hw
      (take_blocks w a.vec b.vec.length hIa.2.1) hIb.2.1
    dsimp only
    rw [Nat.min_eq_left (by omega), trunc_state_lemmas w a b hw hIa hIb hgt, hIb.1]
  · rename_i hle
    exact interBody_inv w a b.vec b.num_bits hw hIa.2.1 hIb.2.1
      (by rw [Nat.min_eq_left (by omega), hIa.1])

/-! ## Symmetric difference -/

theorem xorBody_getBit (w : Nat) (a b : BitSet) (hw : 0 < w)
    (hIa : Inv w a) (hIb : Inv w b) (h : b.num_bits ≤ a.num_bits) (y : Nat) :
    getBit w (xorBody w a b.vec b.num_bits) y = (getBit w a y).xor (getBit w b y) := by
  have hmin : min a.num_bits b.num_bits = b.num_bits := Nat.min_eq_right h
  have hn : computeNumBlocks w (min a.num_bits b.num_bits) ≤ a.vec.length := by
    rw [hmin, hIa.1]
    exact cnb_mono w _ _ hw h
  rw [xorBody, compact_getBit w _ hw (applyOp_blocks _ w a b.vec b.num_bits
    (fun x z hx hz => Nat.xor_lt_two_pow hx hz) hIa.2.1 hIb.2.1 hn),
    applyOp_getBit _ w a b.vec b.num_bits y hn, hmin]
  split
  · rw [Nat.testBit_xor]
    rfl
  · rename_i hge
    have hby : getBit w b y = false :=
      hIb.2.2.1 y (nb_le_of_cnb_le w b.num_bits y hw (by omega))
    rw [hby, Bool.xor_false]

theorem xorRef_getBit (w : Nat) (a b : BitSet) (hw : 0 < w)
    (hIa : Inv w a) (hIb : Inv w b) (y : Nat) :
    getBit w (xorRef w a b) y = (getBit w a y).xor (getBit w b y) := by
  rw [xorRef]
  split
  · rename_i hlt
    rw [xorBody_getBit w b a hw hIb hIa (by omega) y, Bool.xor_comm]
  · rename_i hge
    exact xorBody_getBit w a b hw hIa hIb (by omega) y

theorem xorRef_inv (w : Nat) (a b : BitSet) (hw : 0 < w)
    (hIa : Inv w a) (hIb : Inv w b) : Inv w (xorRef w a b) := by
  rw [xorRef]
  split
  · exact xorBody_inv w b a.vec a.num_bits hw hIb.2.1 hIa.2.1
      (by
        rw [Nat.min_eq_right (by omega), hIb.1]
        exact cnb_mono w _ _ hw (by omega))
  · exact xorBody_inv w a b.vec b.num_bits hw hIa.2.1 hIb.2.1
      (by
        rw [Nat.min_eq_right (by omega), hIa.1]
        exact cnb_mono w _ _ hw (by omega))

theorem xorAssign_eq (w : Nat) (a b : BitSet) : xorAssign w a b = xorRef w a b := rfl

theorem xorOwned_eq (w : Nat) (a b : BitSet) : xorOwned w a b = xorRef w a b := rfl

theorem xorAssignRef_getBit (w : Nat) (a b : BitSet) (hw : 0 < w)
    (hIa : Inv w a) (hIb : Inv w b) (y : Nat) :
    getBit w (xorAssignRef w a b) y = (getBit w a y).xor (getBit w b y) := by
  rw [xorAssignRef]
  split
  · rename_i hlt
    rw [xorBody, compact_getBit w _ hw (applyOp_blocks _ w
      ⟨a.vec ++ b.vec.drop a.vec.length, b.num_bits⟩ b.vec a.num_bits
      (fun x z hx hz => Nat.xor_lt_two_pow hx hz)
      (ext_blocks w a b hIa.2.1 hIb.2.1) hIb.2.1 (by
        dsimp only
        rw [Nat.min_eq_right (by omega), ← hIa.1,
          ext_vec_length w a b hw hIa hIb hlt, hIa.1, hIb.1]
        exact cnb_mono w _ _ hw (by omega)))]
    exact ext_applyOp_getBit (fun x z => x ^^^ z) (fun x z => x.xor z) w a b hw
      hIa hIb hlt (fun x z j _ => Nat.testBit_xor x z j) (fun x => Bool.false_xor x) y
  · rename_i hge
    exact xorBody_getBit w a b hw hIa hIb (by omega) y

theorem xorAssignRef_inv (w : Nat) (a b : BitSet) (hw : 0 < w)
    (hIa : Inv w a) (hIb : Inv w b) : Inv w (xorAssignRef w a b) := by
  rw [xorAssignRef]
  split
  · rename_i hlt
    apply xorBody_inv w ⟨a.vec ++ b.vec.drop a.vec.length, b.num_bits⟩
      b.vec a.num_bits hw (ext_blocks w a b hIa.2.1 hIb.2.1) hIb.2.1
    dsimp only
    rw [Nat.min_eq_right (by omega), ← hIa.1,
      ext_vec_length w a b hw hIa hIb hlt, hIa.1, hIb.1]
    exact cnb_mono w _ _ hw (by omega)
  · rename_i hge
    exact xorBody_inv w a b.vec b.num_bits hw hIa.2.1 hIb.2.1
      (by
        rw [Nat.min_eq_right (by omega), hIa.1]
        exact cnb_mono w _ _ hw (by omega))

/-! ## Difference -/

theorem diffRef_getBit (w : Nat) (a b : BitSet) (hw : 0 < w)
    (hIa : Inv w a) (hIb : Inv w b) (y : Nat) :
    getBit w (diffRef w a b) y = (getBit w a y && !(getBit w b y)) := by
  have hn : computeNumBlocks w (min a.num_bits b.num_bits) ≤ a.vec.length := by
    rw [hIa.1]
    exact cnb_mono w _ _ hw (Nat.min_le_left _ _)
  rw [diffRef, diffBody, compact_getBit w _ hw (applyOp_blocks _ w a b.vec b.num_bits
    (fun x z hx _ => land_lt_two_pow_left x _ w hx) hIa.2.1 hIb.2.1 hn),
    applyOp_getBit _ w a b.vec b.num_bits y hn]
  split
  · rw [Nat.testBit_land, testBit_complw w _ _ (Nat.mod_lt y hw)]
    rfl
  · rename_i hge
    have hmin : min a.num_bits b.num_bits ≤ y :=
      nb_le_of_cnb_le w _ y hw (by omega)
    rcases Nat.le_total a.num_bits b.num_bits with h | h
    · have hay : getBit w a y = false := by
        apply hIa.2.2.1
        rw [Nat.min_eq_left h] at hmin
        omega
      rw [hay]
      rfl
    · have hby : getBit w b y = false := by
        apply hIb.2.2.1
        rw [Nat.min_eq_right h] at hmin
        omega
      rw [hby]
      simp

theorem diffRef_inv (w : Nat) (a b : BitSet) (hw : 0 < w)
    (hIa : Inv w a) (hIb : Inv w b) : Inv w (diffRef w a b) := by
  rw [diffRef]
  exact diffBody_inv w a b.vec b.num_bits hw hIa.2.1 hIb.2.1
    (by
      rw [hIa.1]
      exact cnb_mono w _ _ hw (Nat.min_le_left _ _))

theorem diffAssign_eq (w : Nat) (a b : BitSet) : diffAssign w a b = diffRef w a b := rfl

theorem diffOwned_eq (w : Nat) (a b : BitSet) : diffOwned w a b = diffRef w a b := rfl

theorem diffAssignRef_eq (w : Nat) (a b : BitSet) :
    diffAssignRef w a b = diffRef w a b := rfl

/-! ## Construction, clearing, bulk extension -/

theorem inv_empty (w : Nat) (hw : 0 < w) : Inv w ⟨[], 0⟩ := by
  refine ⟨by simp [cnb_zero w hw], ?_, ?_, ?_⟩
  · intro i
    have h0 : (0 : Nat) < 2 ^ w := Nat.pow_pos (by omega)
    simp only [List.getD, List.getElem?_nil, Option.getD_none]
    exact h0
  · intro y _
    simp [getBit, List.getD, Nat.zero_testBit]
  · intro h
    simp at h

theorem new_inv (w : Nat) (hw : 0 < w) : Inv w BitSet.new := inv_empty w hw

theorem withCapacity_inv (w c : Nat) (hw : 0 < w) : Inv w (BitSet.withCapacity w c) :=
  inv_empty w hw

theorem clear_inv (w : Nat) (s : BitSet) (hw : 0 < w) : Inv w s.clear :=
  inv_empty w hw

theorem contains_insert_iff (w : Nat) (s : BitSet) (v : Nat) (hw : 0 < w)
    (hInv : Inv w s) (y : Nat) :
    (s.insert w v).1.contains w y = true ↔ (y = v ∨ s.contains w y = true) := by
  rw [contains_eq_getBit w _ y (insert_inv w s v hw hInv),
    contains_eq_getBit w s y hInv, insert_getBit w s v hw y]
  simp [Bool.or_eq_true]
  tauto

theorem extend_inv (w : Nat) (s : BitSet) (l : List Nat) (hw : 0 < w)
    (hInv : Inv w s) : Inv w (s.extend w l) := by
  induction l generalizing s with
  | nil => exact hInv
  | cons v l ih =>
    rw [BitSet.extend, List.foldl_cons]
    exact ih _ (insert_inv w s v hw hInv)

theorem extend_contains (w : Nat) (s : BitSet) (l : List Nat) (hw : 0 < w)
    (hInv : Inv w s) (y : Nat) :
    (s.extend w l).contains w y = true ↔ (s.contains w y = true ∨ y ∈ l) := by
  induction l generalizing s with
  | nil => simp [BitSet.extend]
  | cons v l ih =>
    rw [BitSet.extend, List.foldl_cons]
    have h1 := ih (s.insert w v).1 (insert_inv w s v hw hInv)
    rw [BitSet.extend] at h1
    rw [h1, contains_insert_iff w s v hw hInv y, List.mem_cons]
    tauto

theorem ofList_inv (w : Nat) (l : List Nat) (hw : 0 < w) : Inv w (BitSet.ofList w l) :=
  extend_inv w BitSet.new l hw (new_inv w hw)

theorem ofList_contains (w : Nat) (l : List Nat) (hw : 0 < w) (y : Nat) :
    (BitSet.ofList w l).contains w y = true ↔ y ∈ l := by
  rw [BitSet.ofList, extend_contains w BitSet.new l hw (new_inv w hw) y]
  have : BitSet.new.contains w y = false := by
    rw [contains_eq_getBit w _ y (new_inv w hw)]
    simp [getBit, BitSet.new, List.getD, Nat.zero_testBit]
  simp [this]

theorem ofList_getBit (w : Nat) (l : List Nat) (hw : 0 < w) (y : Nat) :
    getBit w (BitSet.ofList w l) y = true ↔ y ∈ l := by
  rw [← contains_eq_getBit w _ y (ofList_inv w l hw)]
  exact ofList_contains w l hw y

/-! ## Canonicity of the representation -/

theorem nbits_le_of_getBit (w : Nat) (a b : BitSet) (hIa : Inv w a) (hIb : Inv w b)
    (h : ∀ x, getBit w a x = getBit w b x) : a.num_bits ≤ b.num_bits := by
  by_contra hlt
  have hpos : 0 < a.num_bits := by omega
  have h1 := hIa.2.2.2 hpos
  rw [h (a.num_bits - 1)] at h1
  have h2 := hIb.2.2.1 (a.num_bits - 1) (by omega)
  rw [h1] at h2
  exact Bool.noConfusion h2

theorem nbits_eq_of_getBit (w : Nat) (a b : BitSet) (hIa : Inv w a) (hIb : Inv w b)
    (h : ∀ x, getBit w a x = getBit w b x) : a.num_bits = b.num_bits :=
  Nat.le_antisymm (nbits_le_of_getBit w a b hIa hIb h)
    (nbits_le_of_getBit w b a hIb hIa (fun x => (h x).symm))

theorem vec_eq_of_getBit (w : Nat) (a b : BitSet) (hw : 0 < w)
    (hIa : Inv w a) (hIb : Inv w b)
    (h : ∀ x, getBit w a x = getBit w b x) : a.vec = b.vec := by
  have hnb : a.num_bits = b.num_bits := nbits_eq_of_getBit w a b hIa hIb h
  apply list_ext_getD _ _ (by rw [hIa.1, hIb.1, hnb])
  intro i
  apply Nat.eq_of_testBit_eq
  intro j
  rcases Nat.lt_or_ge j w with hj | hj
  · have := h (i * w + j)
    rwa [getBit, getBit, div_mul_add _ _ _ hw hj, mod_mul_add _ _ _ hj] at this
  · rw [testBit_ge_false _ w j (hIa.2.1 i) hj, testBit_ge_false _ w j (hIb.2.1 i) hj]

theorem state_eq_of_getBit (w : Nat) (a b : BitSet) (hw : 0 < w)
    (hIa : Inv w a) (hIb : Inv w b)
    (h : ∀ x, getBit w a x = getBit w b x) : a = b := by
  have h1 := vec_eq_of_getBit w a b hw hIa hIb h
  have h2 := nbits_eq_of_getBit w a b hIa hIb h
  cases a
  cases b
  simp only at h1 h2
  rw [h1, h2]

/-! ## Equality, hashing, subset tests -/

theorem beq_iff_eq_state (w : Nat) (a b : BitSet) (hw : 0 < w)
    (hIa : Inv w a) (hIb : Inv w b) : beq w a b = true ↔ a = b := by
  rw [beq]
  constructor
  · intro h
    split at h
    · simp at h
    · rename_i hnb
      have hnbeq : a.num_bits = b.num_bits := by omega
      have htake : a.vec.take (computeNumBlocks w a.num_bits)
          = b.vec.take (computeNumBlocks w a.num_bits) := eq_of_beq h
      rw [← hIa.1, List.take_length] at htake
      have hlen2 : a.vec.length = b.vec.length := by rw [hIa.1, hIb.1, hnbeq]
      rw [hlen2, List.take_length] at htake
      cases a
      cases b
      simp only at htake hnbeq
      rw [htake, hnbeq]
  · rintro rfl
    simp

theorem contains_ext_getBit (w : Nat) (a b : BitSet) (hIa : Inv w a) (hIb : Inv w b)
    (h : ∀ x, a.contains w x = b.contains w x) : ∀ x, getBit w a x = getBit w b x := by
  intro x
  rw [← contains_eq_getBit w a x hIa, ← contains_eq_getBit w b x hIb]
  exact h x

theorem subset_block_zero_iff (w : Nat) (a b : BitSet) (hw : 0 < w)
    (hBa : Blocks w a) (i : Nat) :
    a.vec.getD i 0 &&& complw w (b.vec.getD i 0) = 0
      ↔ ∀ j, j < w → (a.vec.getD i 0).testBit j = true
        → (b.vec.getD i 0).testBit j = true := by
  constructor
  · intro h0 j hj ha
    have := congrArg (Nat.testBit · j) h0
    simp only [Nat.testBit_land, Nat.zero_testBit] at this
    rw [testBit_complw w _ j hj, ha] at this
    simpa using this
  · intro hsub
    apply Nat.eq_of_testBit_eq
    intro j
    rw [Nat.testBit_land, Nat.zero_testBit]
    rcases Nat.lt_or_ge j w with hj | hj
    · rw [testBit_complw w _ j hj]
      cases ha : (a.vec.getD i 0).testBit j
      · rfl
      · rw [hsub j hj ha]
        rfl
    · rw [testBit_ge_false _ w j (hBa i) hj]
      rfl

theorem isSubset_iff (w : Nat) (a b : BitSet) (hw : 0 < w)
    (hIa : Inv w a) (hIb : Inv w b) :
    isSubset w a b = true ↔ ∀ x, getBit w a x = true → getBit w b x = true := by
  rw [isSubset]
  split
  · rename_i hgt
    simp only [Bool.false_eq_true, false_iff]
    intro hsub
    have hpos : 0 < a.num_bits := by omega
    have h1 := hsub (a.num_bits - 1) (hIa.2.2.2 hpos)
    have h2 := hIb.2.2.1 (a.num_bits - 1) (by omega)
    rw [h1] at h2
    exact Bool.noConfusion h2
  · rename_i hle
    rw [List.all_eq_true]
    constructor
    · intro hall x hx
      have hxnb : x < a.num_bits := getBit_true_lt w a x hIa hx
      have hi : x / w ∈ List.range (computeNumBlocks w a.num_bits) :=
        List.mem_range.2 (div_lt_cnb w x a.num_bits hw hxnb)
      have h0 : a.vec.getD (x / w) 0 &&& complw w (b.vec.getD (x / w) 0) = 0 := by
        have := hall _ hi
        exact eq_of_beq this
      exact (subset_block_zero_iff w a b hw hIa.2.1 (x / w)).1 h0 (x % w)
        (Nat.mod_lt x hw) hx
    · intro hsub i _
      apply beq_iff_eq.2
      apply (subset_block_zero_iff w a b hw hIa.2.1 i).2
      intro j hj ha
      have := hsub (i * w + j)
      rw [getBit, getBit, div_mul_add _ _ _ hw hj, mod_mul_add _ _ _ hj] at this
      exact this ha

theorem isSubset_refl (w : Nat) (a : BitSet) (hw : 0 < w) (hBa : Blocks w a) :
    isSubset w a a = true := by
  rw [isSubset, if_neg (by omega)]
  rw [List.all_eq_true]
  intro i _
  apply beq_iff_eq.2
  exact (subset_block_zero_iff w a a hw hBa i).2 (fun j _ h => h)

theorem properSubset_eqflag (w : Nat) (a b : BitSet) (hw : 0 < w)
    (hIa : Inv w a) (hIb : Inv w b) (hle : a.num_bits ≤ b.num_bits) :
    ((computeNumBlocks w a.num_bits == computeNumBlocks w b.num_bits)
      && (List.range (computeNumBlocks w a.num_bits)).all
        (fun i => a.vec.getD i 0 == b.vec.getD i 0)) = true
    ↔ a = b := by
  constructor
  · intro h
    rw [Bool.and_eq_true, List.all_eq_true] at h
    obtain ⟨h1, h2⟩ := h
    have hnblks : computeNumBlocks w a.num_bits = computeNumBlocks w b.num_bits :=
      eq_of_beq h1
    have hlen : a.vec.length = b.vec.length := by rw [hIa.1, hIb.1, hnblks]
    have hvec : a.vec = b.vec := by
      apply list_ext_getD _ _ hlen
      intro i
      rcases Nat.lt_or_ge i a.vec.length with hi | hi
      · have : i ∈ List.range (computeNumBlocks w a.num_bits) :=
          List.mem_range.2 (by rw [← hIa.1]; exact hi)
        exact eq_of_beq (h2 i this)
      · rw [List.getD_eq_default _ _ hi, List.getD_eq_default _ _ (by omega)]
    have hca := compact_of_inv w a hw hIa
    have hcb := compact_of_inv w b hw hIb
    rw [← hca, ← hcb]
    exact compact_congr w a b hvec
  · rintro rfl
    simp [List.all_eq_true]

theorem isProperSubset_iff (w : Nat) (a b : BitSet) (hw : 0 < w)
    (hIa : Inv w a) (hIb : Inv w b) :
    isProperSubset w a b = true ↔ (isSubset w a b = true ∧ a ≠ b) := by
  rw [isProperSubset, isSubset]
  split
  · simp
  · rename_i hle
    simp only
    split
    · rename_i hall
      rw [Bool.not_eq_eq_eq_not, Bool.not_true]
      constructor
      · intro h
        refine ⟨hall, ?_⟩
        intro heq
        rw [(properSubset_eqflag w a b hw hIa hIb (by omega)).2 heq] at h
        exact Bool.noConfusion h
      · rintro ⟨_, hne⟩
        cases hflag : ((computeNumBlocks w a.num_bits == computeNumBlocks w b.num_bits)
          && (List.range (computeNumBlocks w a.num_bits)).all
            (fun i => a.vec.getD i 0 == b.vec.getD i 0))
        · rfl
        · exact absurd ((properSubset_eqflag w a b hw hIa hIb (by omega)).1 hflag) hne
    · rename_i hall
      simp only [Bool.false_eq_true, false_iff, not_and]
      intro hsub
      exact absurd hsub hall

/-! ## Iteration -/

theorem iterBits_spec (w blk base numBits : Nat) (hw : 0 < w) (hblk : blk < 2 ^ w)
    (hhz : ∀ j, j < w → numBits ≤ base + j → blk.testBit j = false) :
    ∀ fuel bit, w - bit < fuel →
    (∀ x, x ∈ iterBits fuel w blk bit base numBits ↔
        ∃ j, bit ≤ j ∧ j < w ∧ blk.testBit j = true ∧ x = base + j) ∧
      (iterBits fuel w blk bit base numBits).Sorted (· < ·) := by
  intro fuel
  induction fuel with
  | zero => omega
  | succ fuel ih =>
    intro bit hfuel
    rw [iterBits]
    by_cases hguard : base + bit < numBits
    · rw [if_pos hguard]
      cases hfind : findLowestSetBit w blk bit with
      | none =>
        have hnone := flsb_none_spec w blk bit hblk hfind
        refine ⟨?_, List.sorted_nil⟩
        intro x
        simp only [List.not_mem_nil, false_iff]
        rintro ⟨j, hj1, hj2, hj3, rfl⟩
        rw [hnone j hj1 hj2] at hj3
        exact Bool.noConfusion hj3
      | some b =>
        obtain ⟨hb1, hb2, hb3, hb4⟩ := flsb_some_spec w blk bit b hblk hfind
        have hrec := ih (b + 1) (by omega)
        refine ⟨?_, ?_⟩
        · intro x
          rw [List.mem_cons, (hrec.1 x)]
          constructor
          · rintro (rfl | ⟨j, hj1, hj2, hj3, rfl⟩)
            · exact ⟨b, hb1, hb2, hb3, rfl⟩
            · exact ⟨j, by omega, hj2, hj3, rfl⟩
          · rintro ⟨j, hj1, hj2, hj3, rfl⟩
            rcases Nat.lt_trichotomy j b with hlt | rfl | hgt
            · rw [hb4 j hj1 hlt] at hj3
              exact absurd hj3 Bool.noConfusion
            · exact Or.inl rfl
            · exact Or.inr ⟨j, by omega, hj2, hj3, rfl⟩
        · rw [List.sorted_cons]
          refine ⟨?_, hrec.2⟩
          intro z hz
          obtain ⟨j, hj1, _, _, rfl⟩ := (hrec.1 z).1 hz
          omega
    · rw [if_neg hguard]
      refine ⟨?_, List.sorted_nil⟩
      intro x
      simp only [List.not_mem_nil, false_iff]
      rintro ⟨j, hj1, hj2, hj3, rfl⟩
      rw [hhz j hj2 (by omega)] at hj3
      exact Bool.noConfusion hj3

theorem iterFrom_spec (w : Nat) (hw : 0 < w) :
    ∀ (slice : List Nat) (base numBits : Nat),
    (∀ b ∈ slice, b < 2 ^ w) →
    (∀ o, o < slice.length * w → numBits ≤ base + o →
      (slice.getD (o / w) 0).testBit (o % w) = false) →
    (∀ x, x ∈ iterFrom w slice base numBits ↔
        ∃ o, o < slice.length * w ∧ (slice.getD (o / w) 0).testBit (o % w) = true
          ∧ x = base + o) ∧
      (iterFrom w slice base numBits).Sorted (· < ·) := by
  intro slice
  induction slice with
  | nil =>
    intro base numBits _ _
    refine ⟨?_, List.sorted_nil⟩
    intro x
    simp [iterFrom]
  | cons blk rest ih =>
    intro base numBits hb hhz
    have hblk : blk < 2 ^ w := hb blk (by simp)
    have hlen : (blk :: rest).length = rest.length + 1 := rfl
    have hcons_getD : ∀ j, j < w → (blk :: rest).getD (j / w) 0 = blk := by
      intro j hj
      rw [Nat.div_eq_of_lt hj]
      rfl
    have hshift_getD : ∀ o, (blk :: rest).getD ((w + o) / w) 0 = rest.getD (o / w) 0 := by
      intro o
      rw [show w + o = o + w by omega, Nat.add_div_right o hw, List.getD_cons_succ]
    have hshift_mod : ∀ o, (w + o) % w = o % w := fun o => Nat.add_mod_left w o
    have hhz_head : ∀ j, j < w → numBits ≤ base + j → blk.testBit j = false := by
      intro j hj hnb
      have := hhz j (by
        rw [hlen]
        calc j < w := hj
          _ ≤ (rest.length + 1) * w := by
            rw [Nat.succ_mul]
            omega) hnb
      rwa [hcons_getD j hj, Nat.mod_eq_of_lt hj] at this
    have hhz_tail : ∀ o, o < rest.length * w → numBits ≤ base + w + o →
        (rest.getD (o / w) 0).testBit (o % w) = false := by
      intro o ho hnb
      have := hhz (w + o) (by
        rw [hlen, Nat.succ_mul]
        omega) (by omega)
      rwa [hshift_getD o, hshift_mod o] at this
    have hhead := iterBits_spec w blk base numBits hw hblk hhz_head (w + 1) 0 (by omega)
    have htail := ih (base + w) numBits (fun z hz => hb z (by simp [hz])) hhz_tail
    rw [iterFrom]
    refine ⟨?_, ?_⟩
    · intro x
      rw [List.mem_append, hhead.1 x, htail.1 x]
      constructor
      · rintro (⟨j, _, hj2, hj3, rfl⟩ | ⟨o, ho1, ho2, rfl⟩)
        · refine ⟨j, ?_, ?_, rfl⟩
          · rw [hlen, Nat.succ_mul]
            omega
          · rwa [hcons_getD j hj2, Nat.mod_eq_of_lt hj2]
        · refine ⟨w + o, ?_, ?_, by omega⟩
          · rw [hlen, Nat.succ_mul]
            omega
          · rwa [hshift_getD o, hshift_mod o]
      · rintro ⟨o, ho1, ho2, rfl⟩
        rcases Nat.lt_or_ge o w with how | how
        · left
          refine ⟨o, by omega, how, ?_, rfl⟩
          rwa [hcons_getD o how, Nat.mod_eq_of_lt how] at ho2
        · right
          refine ⟨o - w, ?_, ?_, by omega⟩
          · rw [hlen, Nat.succ_mul] at ho1
            omega
          · rw [← hshift_getD (o - w), ← hshift_mod (o - w),
              show w + (o - w) = o by omega]
            exact ho2
    · rw [List.Sorted, List.pairwise_append]
      refine ⟨hhead.2, htail.2, ?_⟩
      intro x hx z hz
      obtain ⟨j, _, hj2, _, rfl⟩ := (hhead.1 x).1 hx
      obtain ⟨o, _, _, rfl⟩ := (htail.1 z).1 hz
      omega

theorem iterList_spec (w : Nat) (s : BitSet) (hw : 0 < w) (hInv : Inv w s) :
    (∀ x, x ∈ iterList w s ↔ s.contains w x = true) ∧
      (iterList w s).Sorted (· < ·) := by
  have hhz : ∀ o, o < s.vec.length * w → s.num_bits ≤ 0 + o →
      (s.vec.getD (o / w) 0).testBit (o % w) = false := by
    intro o _ ho
    have := hInv.2.2.1 o (by omega)
    rwa [getBit] at this
  have hspec := iterFrom_spec w hw s.vec 0 s.num_bits
    (mem_lt_of_getD w s.vec hInv.2.1) hhz
  refine ⟨?_, hspec.2⟩
  intro x
  rw [iterList, hspec.1 x, contains_eq_getBit w s x hInv]
  constructor
  · rintro ⟨o, _, ho2, rfl⟩
    rw [getBit]
    simpa using ho2
  · intro hx
    refine ⟨x, ?_, ?_, by omega⟩
    · have h1 : x < s.num_bits := getBit_true_lt w s x hInv hx
      have h2 : s.num_bits ≤ s.vec.length * w := by
        rw [hInv.1]
        exact le_cnb_mul w s.num_bits hw
      omega
    · rw [getBit] at hx
      exact hx

/-! ## Reachability -/

theorem reachable_inv (w : Nat) (hw : 0 < w) : ∀ s, Reachable w s → Inv w s := by
  intro s h
  induction h with
  | new => exact new_inv w hw
  | withCapacity c => exact withCapacity_inv w c hw
  | insert s v _ ih => exact insert_inv w s v hw ih
  | remove s v _ ih => exact remove_inv w s v hw ih
  | clear s _ _ => exact clear_inv w s hw
  | extend s l _ ih => exact extend_inv w s l hw ih
  | ofList l => exact ofList_inv w l hw
  | unionRef a b _ _ iha ihb => exact unionRef_inv w a b hw iha ihb
  | unionAssign a b _ _ iha ihb =>
    rw [unionAssign_eq]
    exact unionRef_inv w a b hw iha ihb
  | unionOwned a b _ _ iha ihb =>
    rw [unionOwned_eq]
    exact unionRef_inv w a b hw iha ihb
  | unionAssignRef a b _ _ iha ihb => exact unionAssignRef_inv w a b hw iha ihb
  | interRef a b _ _ iha ihb => exact interRef_inv w a b hw iha ihb
  | interAssign a b _ _ iha ihb =>
    rw [interAssign_eq]
    exact interRef_inv w a b hw iha ihb
  | interOwned a b _ _ iha ihb =>
    rw [interOwned_eq]
    exact interRef_inv w a b hw iha ihb
  | interAssignRef a b _ _ iha ihb => exact interAssignRef_inv w a b hw iha ihb
  | xorRef a b _ _ iha ihb => exact xorRef_inv w a b hw iha ihb
  | xorAssign a b _ _ iha ihb =>
    rw [xorAssign_eq]
    exact xorRef_inv w a b hw iha ihb
  | xorOwned a b _ _ iha ihb =>
    rw [xorOwned_eq]
    exact xorRef_inv w a b hw iha ihb
  | xorAssignRef a b _ _ iha ihb => exact xorAssignRef_inv w a b hw iha ihb
  | diffRef a b _ _ iha ihb => exact diffRef_inv w a b hw iha ihb
  | diffAssign a b _ _ iha ihb =>
    rw [diffAssign_eq]
    exact diffRef_inv w a b hw iha ihb
  | diffOwned a b _ _ iha ihb =>
    rw [diffOwned_eq]
    exact diffRef_inv w a b hw iha ihb
  | diffAssignRef a b _ _ iha ihb =>
    rw [diffAssignRef_eq]
    exact diffRef_inv w a b hw iha ihb

/-! ## Claim theorems -/

/-- C1: for all finite index sequences `V1`, `V2`, each binary set operation
of `BitSet` — union (`|`), intersection (`&`), difference (`-`) and
symmetric difference (`^`), in the owning, borrowing, assign-by-value and
assign-by-reference forms produced by `op_impl!` (which `union`,
`union_with`, `intersection`, `intersect_with`, `difference`,
`difference_with`, `symmetric_difference` and `symmetric_difference_with`
call directly) — computes the corresponding mathematical set operation on
the member sets of `set(V1)` and `set(V2)`, membership being observed
through `contains`. -/
theorem C1_algebra_correctness (w : Nat) (hw : 0 < w) (V1 V2 : List Nat) (x : Nat) :
    ((unionRef w (BitSet.ofList w V1) (BitSet.ofList w V2)).contains w x = true
      ↔ (x ∈ V1 ∨ x ∈ V2)) ∧
    ((unionOwned w (BitSet.ofList w V1) (BitSet.ofList w V2)).contains w x = true
      ↔ (x ∈ V1 ∨ x ∈ V2)) ∧
    ((unionAssign w (BitSet.ofList w V1) (BitSet.ofList w V2)).contains w x = true
      ↔ (x ∈ V1 ∨ x ∈ V2)) ∧
    ((unionAssignRef w (BitSet.ofList w V1) (BitSet.ofList w V2)).contains w x = true
      ↔ (x ∈ V1 ∨ x ∈ V2)) ∧
    ((interRef w (BitSet.ofList w V1) (BitSet.ofList w V2)).contains w x = true
      ↔ (x ∈ V1 ∧ x ∈ V2)) ∧
    ((interOwned w (BitSet.ofList w V1) (BitSet.ofList w V2)).contains w x = true
      ↔ (x ∈ V1 ∧ x ∈ V2)) ∧
    ((interAssign w (BitSet.ofList w V1) (BitSet.ofList w V2)).contains w x = true
      ↔ (x ∈ V1 ∧ x ∈ V2)) ∧
    ((interAssignRef w (BitSet.ofList w V1) (BitSet.ofList w V2)).contains w x = true
      ↔ (x ∈ V1 ∧ x ∈ V2)) ∧
    ((diffRef w (BitSet.ofList w V1) (BitSet.ofList w V2)).contains w x = true
      ↔ (x ∈ V1 ∧ ¬ x ∈ V2)) ∧
    ((diffOwned w (BitSet.ofList w V1) (BitSet.ofList w V2)).contains w x = true
      ↔ (x ∈ V1 ∧ ¬ x ∈ V2)) ∧
    ((diffAssign w (BitSet.ofList w V1) (BitSet.ofList w V2)).contains w x = true
      ↔ (x ∈ V1 ∧ ¬ x ∈ V2)) ∧
    ((diffAssignRef w (BitSet.ofList w V1) (BitSet.ofList w V2)).contains w x = true
      ↔ (x ∈ V1 ∧ ¬ x ∈ V2)) ∧
    ((xorRef w (BitSet.ofList w V1) (BitSet.ofList w V2)).contains w x = true
      ↔ ((x ∈ V1 ∧ ¬ x ∈ V2) ∨ (¬ x ∈ V1 ∧ x ∈ V2))) ∧
    ((xorOwned w (BitSet.ofList w V1) (BitSet.ofList w V2)).contains w x = true
      ↔ ((x ∈ V1 ∧ ¬ x ∈ V2) ∨ (¬ x ∈ V1 ∧ x ∈ V2))) ∧
    ((xorAssign w (BitSet.ofList w V1) (BitSet.ofList w V2)).contains w x = true
      ↔ ((x ∈ V1 ∧ ¬ x ∈ V2) ∨ (¬ x ∈ V1 ∧ x ∈ V2))) ∧
    ((xorAssignRef w (BitSet.ofList w V1) (BitSet.ofList w V2)).contains w x = true
      ↔ ((x ∈ V1 ∧ ¬ x ∈ V2) ∨ (¬ x ∈ V1 ∧ x ∈ V2))) := by
  set A := BitSet.ofList w V1 with hA
  set B := BitSet.ofList w V2 with hB
  have hIA : Inv w A := ofList_inv w V1 hw
  have hIB : Inv w B := ofList_inv w V2 hw
  have hmA : ∀ y, getBit w A y = true ↔ y ∈ V1 := ofList_getBit w V1 hw
  have hmB : ∀ y, getBit w B y = true ↔ y ∈ V2 := ofList_getBit w V2 hw
  have hu : (unionRef w A B).contains w x = true ↔ (x ∈ V1 ∨ x ∈ V2) := by
    rw [contains_eq_getBit w _ x (unionRef_inv w A B hw hIA hIB),
      unionRef_getBit w A B hw hIA hIB x, Bool.or_eq_true, hmA x, hmB x]
  have huar : (unionAssignRef w A B).contains w x = true ↔ (x ∈ V1 ∨ x ∈ V2) := by
    rw [contains_eq_getBit w _ x (unionAssignRef_inv w A B hw hIA hIB),
      unionAssignRef_getBit w A B hw hIA hIB x, Bool.or_eq_true, hmA x, hmB x]
  have hi : (interRef w A B).contains w x = true ↔ (x ∈ V1 ∧ x ∈ V2) := by
    rw [contains_eq_getBit w _ x (interRef_inv w A B hw hIA hIB),
      interRef_getBit w A B hw hIA hIB x, Bool.and_eq_true, hmA x, hmB x]
  have hiar : (interAssignRef w A B).contains w x = true ↔ (x ∈ V1 ∧ x ∈ V2) := by
    rw [contains_eq_getBit w _ x (interAssignRef_inv w A B hw hIA hIB),
      interAssignRef_getBit w A B hw hIA hIB x, Bool.and_eq_true, hmA x, hmB x]
  have hd : (diffRef w A B).contains w x = true ↔ (x ∈ V1 ∧ ¬ x ∈ V2) := by
    rw [contains_eq_getBit w _ x (diffRef_inv w A B hw hIA hIB),
      diffRef_getBit w A B hw hIA hIB x, Bool.and_eq_true, hmA x,
      Bool.not_eq_eq_eq_not, Bool.not_true, ← Bool.not_eq_true, hmB x]
  have hx : (xorRef w A B).contains w x = true
      ↔ ((x ∈ V1 ∧ ¬ x ∈ V2) ∨ (¬ x ∈ V1 ∧ x ∈ V2)) := by
    rw [contains_eq_getBit w _ x (xorRef_inv w A B hw hIA hIB),
      xorRef_getBit w A B hw hIA hIB x, ← hmA x, ← hmB x]
    cases getBit w A x <;> cases getBit w B x <;> simp
  have hxar : (xorAssignRef w A B).contains w x = true
      ↔ ((x ∈ V1 ∧ ¬ x ∈ V2) ∨ (¬ x ∈ V1 ∧ x ∈ V2)) := by
    rw [contains_eq_getBit w _ x (xorAssignRef_inv w A B hw hIA hIB),
      xorAssignRef_getBit w A B hw hIA hIB x, ← hmA x, ← hmB x]
    cases getBit w A x <;> cases getBit w B x <;> simp
  refine ⟨hu, ?_, ?_, huar, hi, ?_, ?_, hiar, hd, ?_, ?_, ?_, hx, ?_, ?_, hxar⟩
  · rw [unionOwned_eq]
    exact hu
  · rw [unionAssign_eq]
    exact hu
  · rw [interOwned_eq]
    exact hi
  · rw [interAssign_eq]
    exact hi
  · rw [diffOwned_eq, diffRef]
    rw [diffRef] at hd
    exact hd
  · rw [diffAssign_eq, diffRef]
    rw [diffRef] at hd
    exact hd
  · rw [diffAssignRef_eq, diffRef]
    rw [diffRef] at hd
    exact hd
  · rw [xorOwned_eq]
    exact hx
  · rw [xorAssign_eq]
    exact hx

theorem C1_algebra_correctness_witness :
    0 < 8 ∧ ((unionRef 8 (BitSet.ofList 8 [1, 2]) (BitSet.ofList 8 [2, 3])).contains 8 2 = true
      ↔ ((2 : Nat) ∈ [(1 : Nat), 2] ∨ (2 : Nat) ∈ [(2 : Nat), 3])) :=
  ⟨by decide, (C1_algebra_correctness 8 (by decide) [1, 2] [2, 3] 2).1⟩

/-- C2: every public operation — `new`, `with_capacity`, `clear`, `insert`,
`remove`, `extend`/`FromIterator`, and all four forms of the four algebra
operators — preserves the representation invariants `Inv`: block count
`ceil(num_bits / w)`, zero bits at positions `≥ num_bits`, and the
compaction invariant (bit `num_bits - 1` set when `num_bits > 0`). -/
theorem C2_invariant_preservation (w : Nat) (hw : 0 < w) :
    Inv w BitSet.new ∧
    (∀ c, Inv w (BitSet.withCapacity w c)) ∧
    (∀ s : BitSet, Inv w s.clear) ∧
    (∀ s v, Inv w s → Inv w (s.insert w v).1) ∧
    (∀ s v, Inv w s → Inv w (s.remove w v).1) ∧
    (∀ s l, Inv w s → Inv w (s.extend w l)) ∧
    (∀ l, Inv w (BitSet.ofList w l)) ∧
    (∀ a b, Inv w a → Inv w b →
      Inv w (unionOwned w a b) ∧ Inv w (unionRef w a b) ∧
      Inv w (unionAssign w a b) ∧ Inv w (unionAssignRef w a b)) ∧
    (∀ a b, Inv w a → Inv w b →
      Inv w (interOwned w a b) ∧ Inv w (interRef w a b) ∧
      Inv w (interAssign w a b) ∧ Inv w (interAssignRef w a b)) ∧
    (∀ a b, Inv w a → Inv w b →
      Inv w (diffOwned w a b) ∧ Inv w (diffRef w a b) ∧
      Inv w (diffAssign w a b) ∧ Inv w (diffAssignRef w a b)) ∧
    (∀ a b, Inv w a → Inv w b →
      Inv w (xorOwned w a b) ∧ Inv w (xorRef w a b) ∧
      Inv w (xorAssign w a b) ∧ Inv w (xorAssignRef w a b)) := by
  refine ⟨new_inv w hw, fun c => withCapacity_inv w c hw, fun s => clear_inv w s hw,
    fun s v h => insert_inv w s v hw h, fun s v h => remove_inv w s v hw h,
    fun s l h => extend_inv w s l hw h, fun l => ofList_inv w l hw,
    ?_, ?_, ?_, ?_⟩
  · intro a b ha hb
    refine ⟨?_, unionRef_inv w a b hw ha hb, ?_, unionAssignRef_inv w a b hw ha hb⟩
    · rw [unionOwned_eq]
      exact unionRef_inv w a b hw ha hb
    · rw [unionAssign_eq]
      exact unionRef_inv w a b hw ha hb
  · intro a b ha hb
    refine ⟨?_, interRef_inv w a b hw ha hb, ?_, interAssignRef_inv w a b hw ha hb⟩
    · rw [interOwned_eq]
      exact interRef_inv w a b hw ha hb
    · rw [interAssign_eq]
      exact interRef_inv w a b hw ha hb
  · intro a b ha hb
    refine ⟨?_, diffRef_inv w a b hw ha hb, ?_, ?_⟩
    · rw [diffOwned_eq]
      exact diffRef_inv w a b hw ha hb
    · rw [diffAssign_eq]
      exact diffRef_inv w a b hw ha hb
    · rw [diffAssignRef_eq]
      exact diffRef_inv w a b hw ha hb
  · intro a b ha hb
    refine ⟨?_, xorRef_inv w a b hw ha hb, ?_, xorAssignRef_inv w a b hw ha hb⟩
    · rw [xorOwned_eq]
      exact xorRef_inv w a b hw ha hb
    · rw [xorAssign_eq]
      exact xorRef_inv w a b hw ha hb

theorem C2_invariant_preservation_witness :
    0 < 8 ∧ Inv 8 BitSet.new :=
  ⟨by decide, (C2_invariant_preservation 8 (by decide)).1⟩

/-- C3: collecting any finite sequence of indices into a `BitSet` (repeated
`insert`, as `Extend`/`FromIterator` do) and iterating yields exactly the
strictly ascending (`Sorted (· < ·)`, hence duplicate-free) sequence of the
indices occurring in the input; the yield sequence is a `List`, hence
finite. -/
theorem C3_roundtrip (w : Nat) (hw : 0 < w) (V : List Nat) :
    (iterList w (BitSet.ofList w V)).Sorted (· < ·) ∧
    (∀ x, x ∈ iterList w (BitSet.ofList w V) ↔ x ∈ V) := by
  have hspec := iterList_spec w (BitSet.ofList w V) hw (ofList_inv w V hw)
  refine ⟨hspec.2, ?_⟩
  intro x
  rw [hspec.1 x]
  exact ofList_contains w V hw x

theorem C3_roundtrip_witness :
    0 < 8 ∧ ((iterList 8 (BitSet.ofList 8 [3, 1, 3, 7])).Sorted (· < ·) ∧
      (∀ x, x ∈ iterList 8 (BitSet.ofList 8 [3, 1, 3, 7]) ↔ x ∈ [3, 1, 3, 7])) :=
  ⟨by decide, C3_roundtrip 8 (by decide) [3, 1, 3, 7]⟩

/-- C4: for invariant-satisfying `BitSet`s over the same block width,
`PartialEq` (`beq`, which compares `num_bits` and the logical block prefix)
holds iff the member sets observed through `contains` coincide — regardless
of capacity, which is not part of the logical state — and whenever it holds
the `Hash` implementation feeds identical data (`hashInput`, the logical
prefix slice) to the hasher; the hash input is by construction a function
of the logical prefix only. -/
theorem C4_eq_hash_agree (w : Nat) (a b : BitSet) (hw : 0 < w)
    (hIa : Inv w a) (hIb : Inv w b) :
    (beq w a b = true ↔ ∀ x, a.contains w x = b.contains w x) ∧
    (beq w a b = true → hashInput w a = hashInput w b) := by
  constructor
  · rw [beq_iff_eq_state w a b hw hIa hIb]
    constructor
    · rintro rfl x
      rfl
    · intro h
      exact state_eq_of_getBit w a b hw hIa hIb (contains_ext_getBit w a b hIa hIb h)
  · intro h
    rw [(beq_iff_eq_state w a b hw hIa hIb).1 h]

theorem C4_eq_hash_agree_witness :
    (0 < 8 ∧ Inv 8 BitSet.new ∧ Inv 8 (BitSet.ofList 8 [])) ∧
    ((beq 8 BitSet.new (BitSet.ofList 8 []) = true
        ↔ ∀ x, BitSet.new.contains 8 x = (BitSet.ofList 8 []).contains 8 x) ∧
      (beq 8 BitSet.new (BitSet.ofList 8 []) = true
        → hashInput 8 BitSet.new = hashInput 8 (BitSet.ofList 8 []))) :=
  ⟨⟨by decide, new_inv 8 (by decide), ofList_inv 8 [] (by decide)⟩,
    C4_eq_hash_agree 8 BitSet.new (BitSet.ofList 8 []) (by decide)
      (new_inv 8 (by decide)) (ofList_inv 8 [] (by decide))⟩

/-- C5: `is_subset(A, B)` is true iff every member of `A` is a member of
`B`; it returns `false` immediately when `A.num_bits > B.num_bits` (which
can only happen when `A` is not a member-subset of `B`); `is_subset(A, A)`
is always true; `is_proper_subset(A, A)` is always false; and
`is_proper_subset(A, B)` holds iff `A` is a subset of `B` and the member
sets differ. -/
theorem C5_subset_tests (w : Nat) (a b : BitSet) (hw : 0 < w)
    (hIa : Inv w a) (hIb : Inv w b) :
    (isSubset w a b = true
      ↔ ∀ x, a.contains w x = true → b.contains w x = true) ∧
    (a.num_bits > b.num_bits → isSubset w a b = false) ∧
    isSubset w a a = true ∧
    isProperSubset w a a = false ∧
    (isProperSubset w a b = true
      ↔ (isSubset w a b = true ∧ ¬ ∀ x, a.contains w x = b.contains w x)) := by
  have hsub : isSubset w a b = true
      ↔ ∀ x, a.contains w x = true → b.contains w x = true := by
    rw [isSubset_iff w a b hw hIa hIb]
    constructor
    · intro h x hx
      rw [contains_eq_getBit w b x hIb]
      exact h x (by rwa [contains_eq_getBit w a x hIa] at hx)
    · intro h x hx
      rw [← contains_eq_getBit w b x hIb]
      exact h x (by rwa [← contains_eq_getBit w a x hIa] at hx)
  refine ⟨hsub, ?_, isSubset_refl w a hw hIa.2.1, ?_, ?_⟩
  · intro hgt
    rw [isSubset, if_pos hgt]
  · have := isProperSubset_iff w a a hw hIa hIa
    cases h : isProperSubset w a a
    · rfl
    · exact absurd (this.1 h).2 (by simp)
  · rw [isProperSubset_iff w a b hw hIa hIb, hsub]
    constructor
    · rintro ⟨h1, h2⟩
      refine ⟨h1, ?_⟩
      intro hc
      exact h2 (state_eq_of_getBit w a b hw hIa hIb
        (contains_ext_getBit w a b hIa hIb hc))
    · rintro ⟨h1, h2⟩
      refine ⟨h1, ?_⟩
      rintro rfl
      exact h2 (fun x => rfl)

theorem C5_subset_tests_witness :
    (0 < 8 ∧ Inv 8 (BitSet.ofList 8 [1]) ∧ Inv 8 (BitSet.ofList 8 [1, 2])) ∧
    isSubset 8 (BitSet.ofList 8 [1]) (BitSet.ofList 8 [1]) = true :=
  ⟨⟨by decide, ofList_inv 8 [1] (by decide), ofList_inv 8 [1, 2] (by decide)⟩,
    (C5_subset_tests 8 (BitSet.ofList 8 [1]) (BitSet.ofList 8 [1, 2]) (by decide)
      (ofList_inv 8 [1] (by decide)) (ofList_inv 8 [1, 2] (by decide))).2.2.1⟩

/-- C8: with `U` the number of values of the index type (`usize::MAX + 1`)
and `cap0` the current allocation capacity in bits, `reserve` and
`reserve_exact` fail (modelled as `none`, the source's debug-mode
panic-equivalent, raised before any mutation) exactly when their `usize`
arithmetic overflows: always when the checked `num_bits + additional`
overflows, and also when the grow branch is taken and the
`cap + T::NUM_BITS` inside `compute_num_blocks(cap)` overflows; on success
the logical state is unchanged, never wrapped or truncated.  The
`compute_num_blocks(cap) - vec_len` subtraction of the grow branch never
underflows, because the vector always fits in the current capacity.
`insert` with its `usize` arithmetic made explicit (`value + 1` and the
`num_bits + NUM_BITS` inside `compute_num_blocks`, which in the source
precede every mutation) fails exactly when that arithmetic would exceed
the index type, and on success performs the exact (unwrapped, untruncated)
arithmetic of the unchecked model. -/
theorem C8_capacity_overflow (U w : Nat) (hw : 0 < w) :
    (∀ (s : BitSet) (cap0 a : Nat), U ≤ s.num_bits + a →
      reserveE U w s cap0 a = none) ∧
    (∀ (s : BitSet) (cap0 a : Nat), reserveE U w s cap0 a = none
      ↔ (U ≤ s.num_bits + a
        ∨ (cap0 < s.num_bits + a ∧ U ≤ s.num_bits + a + w))) ∧
    (∀ (s : BitSet) (cap0 a : Nat) (t : BitSet),
      reserveE U w s cap0 a = some t → t = s) ∧
    (∀ (s : BitSet) (cap0 a : Nat), U ≤ s.num_bits + a →
      reserveExactE U w s cap0 a = none) ∧
    (∀ (s : BitSet) (cap0 a : Nat), reserveExactE U w s cap0 a = none
      ↔ (U ≤ s.num_bits + a
        ∨ (cap0 < s.num_bits + a ∧ U ≤ s.num_bits + a + w))) ∧
    (∀ (s : BitSet) (cap0 a : Nat) (t : BitSet),
      reserveExactE U w s cap0 a = some t → t = s) ∧
    (∀ (s : BitSet) (cap0 a : Nat), s.vec.length * w ≤ cap0 →
      cap0 < s.num_bits + a →
      s.vec.length ≤ computeNumBlocks w (s.num_bits + a)) ∧
    (∀ s v, insertE U w s v = none ↔ U ≤ v + 1 + w) ∧
    (∀ s v t, insertE U w s v = some t →
      t = s.insert w v ∧ t.1.num_bits = max s.num_bits (v + 1) ∧
      (s.num_bits < U → t.1.num_bits < U)) := by
  have hresE : ∀ (s : BitSet) (cap0 a : Nat), reserveE U w s cap0 a = none
      ↔ (U ≤ s.num_bits + a
        ∨ (cap0 < s.num_bits + a ∧ U ≤ s.num_bits + a + w)) := by
    intro s cap0 a
    rw [reserveE]
    split
    · rename_i h
      exact iff_of_true rfl (Or.inl (by omega))
    · rename_i h
      split
      · rename_i h2
        split
        · rename_i h3
          exact iff_of_true rfl (Or.inr ⟨by omega, by omega⟩)
        · rename_i h3
          exact iff_of_false (fun hx => Option.noConfusion hx) (by omega)
      · rename_i h2
        exact iff_of_false (fun hx => Option.noConfusion hx) (by omega)
  have hresXE : ∀ (s : BitSet) (cap0 a : Nat), reserveExactE U w s cap0 a = none
      ↔ (U ≤ s.num_bits + a
        ∨ (cap0 < s.num_bits + a ∧ U ≤ s.num_bits + a + w)) := by
    intro s cap0 a
    rw [reserveExactE]
    split
    · rename_i h
      exact iff_of_true rfl (Or.inl (by omega))
    · rename_i h
      split
      · rename_i h2
        split
        · rename_i h3
          exact iff_of_true rfl (Or.inr ⟨by omega, by omega⟩)
        · rename_i h3
          exact iff_of_false (fun hx => Option.noConfusion hx) (by omega)
      · rename_i h2
        exact iff_of_false (fun hx => Option.noConfusion hx) (by omega)
  refine ⟨?_, hresE, ?_, ?_, hresXE, ?_, ?_, ?_, ?_⟩
  · intro s cap0 a h
    exact (hresE s cap0 a).2 (Or.inl h)
  · intro s cap0 a t h
    rw [reserveE] at h
    split at h
    · exact Option.noConfusion h
    · split at h
      · split at h
        · exact Option.noConfusion h
        · exact (Option.some.inj h).symm
      · exact (Option.some.inj h).symm
  · intro s cap0 a h
    exact (hresXE s cap0 a).2 (Or.inl h)
  · intro s cap0 a t h
    rw [reserveExactE] at h
    split at h
    · exact Option.noConfusion h
    · split at h
      · split at h
        · exact Option.noConfusion h
        · exact (Option.some.inj h).symm
      · exact (Option.some.inj h).symm
  · intro s cap0 a hfit hgrow
    have hlt : s.vec.length * w < s.num_bits + a := by omega
    exact le_of_lt ((lt_cnb_iff w (s.num_bits + a) s.vec.length hw).2 hlt)
  · intro s v
    rw [insertE]
    split
    · rename_i h
      exact iff_of_true rfl (by omega)
    · split
      · rename_i h1 h2
        exact iff_of_true rfl (by omega)
      · rename_i h1 h2
        exact iff_of_false (fun hx => Option.noConfusion hx) (by omega)
  · intro s v t h
    rw [insertE] at h
    split at h
    · exact Option.noConfusion h
    · split at h
      · exact Option.noConfusion h
      · rename_i h1 h2
        have ht : t = s.insert w v := (Option.some.inj h).symm
        refine ⟨ht, ?_, ?_⟩
        · rw [ht]
          exact insert_num_bits w s v
        · intro hs
          rw [ht, insert_num_bits w s v]
          omega

theorem C8_capacity_overflow_witness :
    0 < 64 ∧ reserveE (2 ^ 64) 64 ⟨[], 0⟩ 0 (2 ^ 64) = none :=
  ⟨by decide,
    (C8_capacity_overflow (2 ^ 64) 64 (by decide)).1 ⟨[], 0⟩ 0 (2 ^ 64) (by decide)⟩

/-- C9: for states reachable through the public API, every slice index the
source performs stays in bounds: `contains`/`remove` index block
`value / NUM_BITS` only after checking `value < num_bits`, which puts the
block inside the vector; `insert` indexes only after resizing the vector to
cover `value`; `is_subset`/`is_proper_subset` touch only the first
`ceil(self.num_bits / NUM_BITS)` blocks, which both operand vectors
possess once the `num_bits` comparison has passed.  Hence the
out-of-bounds (`getD`-default) branch of each embedded access is
unreachable. -/
theorem C9_index_in_bounds (w : Nat) (hw : 0 < w) :
    (∀ s x, Reachable w s → x < s.num_bits → x / w < s.vec.length) ∧
    (∀ s x, Reachable w s → x / w < (s.insert w x).1.vec.length) ∧
    (∀ a b, Reachable w a → Reachable w b → a.num_bits ≤ b.num_bits →
      computeNumBlocks w a.num_bits ≤ a.vec.length ∧
      computeNumBlocks w a.num_bits ≤ b.vec.length) := by
  refine ⟨?_, ?_, ?_⟩
  · intro s x hs hx
    rw [(reachable_inv w hw s hs).1]
    exact div_lt_cnb w x s.num_bits hw hx
  · intro s x _
    rw [insert_vec_length]
    exact lt_of_lt_of_le (div_lt_cnb w x (x + 1) hw (by omega)) (le_max_right _ _)
  · intro a b ha hb hle
    constructor
    · rw [(reachable_inv w hw a ha).1]
    · rw [(reachable_inv w hw b hb).1]
      exact cnb_mono w _ _ hw hle

theorem C9_index_in_bounds_witness :
    0 < 8 ∧ 3 / 8 < (BitSet.ofList 8 [3]).vec.length :=
  ⟨by decide, (C9_index_in_bounds 8 (by decide)).1 (BitSet.ofList 8 [3]) 3
    (Reachable.ofList [3]) (by decide)⟩

/-- C10: the representation is canonical — two reachable states with the
same member set (observed through `contains`) are structurally identical
(same `num_bits`, same blocks), so the structural comparison of
`PartialEq` coincides with extensional equality of member sets. -/
theorem C10_canonical_representation (w : Nat) (a b : BitSet) (hw : 0 < w)
    (ha : Reachable w a) (hb : Reachable w b) :
    ((∀ x, a.contains w x = b.contains w x)
      ↔ (a.num_bits = b.num_bits ∧ a.vec = b.vec)) ∧
    (beq w a b = true ↔ ∀ x, a.contains w x = b.contains w x) := by
  have hIa := reachable_inv w hw a ha
  have hIb := reachable_inv w hw b hb
  have hcan : (∀ x, a.contains w x = b.contains w x) ↔ a = b := by
    constructor
    · intro h
      exact state_eq_of_getBit w a b hw hIa hIb (contains_ext_getBit w a b hIa hIb h)
    · rintro rfl x
      rfl
  constructor
  · rw [hcan]
    constructor
    · rintro rfl
      exact ⟨rfl, rfl⟩
    · rintro ⟨h1, h2⟩
      cases a
      cases b
      simp only at h1 h2
      rw [h1, h2]
  · rw [beq_iff_eq_state w a b hw hIa hIb, hcan]

theorem C10_canonical_representation_witness :
    0 < 8 ∧
    (((∀ x, (BitSet.ofList 8 [1]).contains 8 x
          = ((BitSet.new.insert 8 1).1).contains 8 x)
        ↔ ((BitSet.ofList 8 [1]).num_bits = ((BitSet.new.insert 8 1).1).num_bits
          ∧ (BitSet.ofList 8 [1]).vec = ((BitSet.new.insert 8 1).1).vec)) ∧
      (beq 8 (BitSet.ofList 8 [1]) ((BitSet.new.insert 8 1).1) = true
        ↔ ∀ x, (BitSet.ofList 8 [1]).contains 8 x
          = ((BitSet.new.insert 8 1).1).contains 8 x)) :=
  ⟨by decide, C10_canonical_representation 8 (BitSet.ofList 8 [1])
    (BitSet.new.insert 8 1).1 (by decide) (Reachable.ofList [1])
    (Reachable.insert BitSet.new 1 Reachable.new)⟩

theorem getD_append_zeros (l : List Nat) (k i : Nat) :
    (l ++ List.replicate k 0).getD i 0 = l.getD i 0 := by
  rcases Nat.lt_or_ge i l.length with h | h
  · rw [List.getD_append _ _ 0 i h]
  · rw [List.getD_append_right _ _ 0 i h, getD_replicate_zero,
      List.getD_eq_default _ _ h]

theorem or_and_complw (w b j : Nat) (hb : b < 2 ^ w) (hj : j < w)
    (hbit : b.testBit j = false) :
    (b ||| (1 <<< j)) &&& complw w (1 <<< j) = b := by
  apply Nat.eq_of_testBit_eq
  intro i
  rw [Nat.testBit_land, Nat.testBit_lor, Nat.one_shiftLeft, complw, Nat.testBit_xor,
    Nat.testBit_two_pow, Nat.testBit_two_pow_sub_one]
  rcases Nat.lt_or_ge i w with hi | hi
  · rcases eq_or_ne j i with rfl | hne
    · simp [hbit, hi]
    · simp [hne, hi]
  · rw [testBit_ge_false b w i hb hi]
    have hne : j ≠ i := by omega
    simp [hne, Nat.not_lt_of_ge hi]

/-- C6: on any invariant-satisfying state, `insert(x)` followed by
`remove(x)` leaves `contains(x) == false`; and when `x` was absent and at
least the logical length (so `x` becomes the unique highest member), the
`remove` compacts the state back — in fact the whole state, and in
particular `num_bits`, returns to its value before the `insert`. -/
theorem C6_insert_remove_inverse (w : Nat) (s : BitSet) (x : Nat) (hw : 0 < w)
    (hInv : Inv w s) :
    ((s.insert w x).1.remove w x).1.contains w x = false ∧
    (s.contains w x = false → s.num_bits ≤ x →
      ((s.insert w x).1.remove w x).1.num_bits = s.num_bits) := by
  constructor
  · have hIT := insert_inv w s x hw hInv
    have hIR := remove_inv w (s.insert w x).1 x hw hIT
    rw [contains_eq_getBit w _ x hIR, remove_getBit w _ x hw hIT x]
    simp
  · intro hc hx
    have hgs : getBit w s x = false := by
      rwa [contains_eq_getBit w s x hInv] at hc
    have hTnb : (s.insert w x).1.num_bits = x + 1 := by
      rw [insert_num_bits]
      omega
    have hTvec : (s.insert w x).1.vec
        = (s.vec ++ List.replicate
            (max s.vec.length (computeNumBlocks w (x + 1)) - s.vec.length) 0).set
          (x / w)
          ((s.vec ++ List.replicate
            (max s.vec.length (computeNumBlocks w (x + 1)) - s.vec.length) 0).getD
              (x / w) 0 ||| (1 <<< (x % w))) := by
      rw [insert_fst]
      dsimp only
      rw [pad_eq]
    have hVlen : x / w < (s.vec ++ List.replicate
        (max s.vec.length (computeNumBlocks w (x + 1)) - s.vec.length) 0).length := by
      simp only [List.length_append, List.length_replicate]
      have h1 : x / w < computeNumBlocks w (x + 1) :=
        div_lt_cnb w x (x + 1) hw (by omega)
      omega
    have hbv : (s.vec ++ List.replicate
        (max s.vec.length (computeNumBlocks w (x + 1)) - s.vec.length) 0).getD
          (x / w) 0 = s.vec.getD (x / w) 0 := getD_append_zeros _ _ _
    have hpres : (s.insert w x).1.containsUnchecked w x = true := by
      rw [containsUnchecked_eq_getBit, insert_getBit w s x hw x]
      simp
    have hcond : ((s.insert w x).1.containsUnchecked w x
        && (x + 1 == (s.insert w x).1.num_bits)) = true := by
      rw [hpres, hTnb]
      simp
    rw [remove_lt_vec w (s.insert w x).1 x (by omega), if_pos hcond]
    have hTget : (s.insert w x).1.vec.getD (x / w) 0
        = s.vec.getD (x / w) 0 ||| (1 <<< (x % w)) := by
      rw [hTvec, getD_set_self _ _ _ hVlen, hbv]
    have hclear : (s.insert w x).1.vec.set (x / w)
        ((s.insert w x).1.vec.getD (x / w) 0 &&& complw w (1 <<< (x % w)))
        = s.vec ++ List.replicate
            (max s.vec.length (computeNumBlocks w (x + 1)) - s.vec.length) 0 := by
      rw [hTget, or_and_complw w _ _ (hInv.2.1 (x / w)) (Nat.mod_lt x hw) hgs,
        hTvec, List.set_set, ← hbv, set_getD_self]
    rw [hclear, hTnb, compact_padded w s _ (x + 1) hw hInv]

theorem C6_insert_remove_inverse_witness :
    (0 < 8 ∧ Inv 8 (BitSet.ofList 8 [2])) ∧
    (((BitSet.ofList 8 [2]).insert 8 9).1.remove 8 9).1.contains 8 9 = false ∧
    ((BitSet.ofList 8 [2]).contains 8 9 = false → (BitSet.ofList 8 [2]).num_bits ≤ 9 →
      (((BitSet.ofList 8 [2]).insert 8 9).1.remove 8 9).1.num_bits
        = (BitSet.ofList 8 [2]).num_bits) :=
  ⟨⟨by decide, ofList_inv 8 [2] (by decide)⟩,
    C6_insert_remove_inverse 8 (BitSet.ofList 8 [2]) 9 (by decide)
      (ofList_inv 8 [2] (by decide))⟩

set_option maxRecDepth 40000 in
/-- C7 (counterexample): inserting 3173 into an *empty* `BitSet` with 8-bit
blocks and then removing 3173 does *not* leave logical length 8 — the
claimed scenario garbles the crate's `remove` unit test, where length 8
survives only because the element 7 is still present.  Here the set
becomes empty again, so `compact` resets `num_bits` to 0. -/
theorem C7_counterexample :
    ¬ (((BitSet.new.insert 8 3173).1.remove 8 3173).1.num_bits = 8) := by decide

set_option maxRecDepth 40000 in
/-- C7 (amended): inserting 3173 into an empty `BitSet` with 8-bit blocks
and then removing 3173 leaves the empty state — logical length 0 and no
blocks — not 3174 and not 8. -/
theorem C7_amended_length_zero :
    ((BitSet.new.insert 8 3173).1.remove 8 3173).1 = ⟨[], 0⟩ ∧
    ((BitSet.new.insert 8 3173).1.remove 8 3173).1.num_bits = 0 := by
  constructor
  · decide
  · decide

end Bittyset
